import Mathlib

/-!
# rotatelogger: a size-bounded rotating file writer

A shallow embedding of `rotatewriter.go` (package `rotatelogger`).

* Go strings are byte sequences; they are modelled as lists of characters, one
  character per byte.
* `int` and `int64` are modelled as `Int` with explicit wrap-around at 64 bits
  (the word size of the usual 64-bit targets).
* The file system, the clock and the `*os.File` handle are the collaborators of
  the writer.  They are modelled by an explicit state `FS`: the listing of the
  writer's directory, a clock, a script of injected I/O failures and the log of
  the calls made so far.  `filepath.Join(w.dir, x)` designates the entry `x` of
  that directory and `w.Filename` designates the entry `filepath.Base(w.Filename)`,
  so the directory operations of the model take entry names.
* The mutex is not modelled: every operation runs to completion on its own.
-/

namespace Rotatelogger

set_option maxRecDepth 100000

/-- A Go string, one character per byte. -/
abbrev Str := List Char

/-! ## Machine integers -/

/-- Conversion to `int64` (two's complement wrap-around). -/
def wrapInt64 (x : Int) : Int := (x + 2 ^ 63) % 2 ^ 64 - 2 ^ 63

/-- Result of an `int` operation; `int` is 64 bits wide. -/
def wrapInt (x : Int) : Int := wrapInt64 x

/-! ## Package `strings` -/

/-- Go `strings.HasPrefix`: `len(s) >= len(p) && s[:len(p)] == p`. -/
def HasPrefix (s p : Str) : Bool :=
  decide (p.length ≤ s.length) && (s.take p.length == p)

/-- Go `strings.HasSuffix`: `len(s) >= len(x) && s[len(s)-len(x):] == x`. -/
def HasSuffix (s x : Str) : Bool :=
  decide (x.length ≤ s.length) && (s.drop (s.length - x.length) == x)

/-- Go `strings.TrimPrefix`. -/
def TrimPrefix (s p : Str) : Str :=
  if HasPrefix s p then s.drop p.length else s

/-- Go `strings.TrimSuffix`. -/
def TrimSuffix (s x : Str) : Str :=
  if HasSuffix s x then s.take (s.length - x.length) else s

/-! ## Package `strconv` and the `%d` verb -/

/-- The two kinds of `*strconv.NumError`. -/
inductive NumError where
  | ErrSyntax
  | ErrRange
deriving DecidableEq, Repr

/-- Largest `uint64`. -/
def maxUint64 : Nat := 2 ^ 64 - 1

/-- The digit loop of `strconv.ParseUint` for base 10 and bit size 64: `n` is the
value accumulated so far. -/
def parseUintLoop : Str → Nat → Except NumError Nat
  | [], n => .ok n
  | c :: cs, n =>
    if 48 ≤ c.toNat ∧ c.toNat ≤ 57 then
      let d := c.toNat - 48
      if n ≥ maxUint64 / 10 + 1 then .error .ErrRange
      else
        let m := n * 10
        let n1 := (m + d) % 2 ^ 64
        if n1 < m ∨ n1 > maxUint64 then .error .ErrRange
        else parseUintLoop cs n1
    else .error .ErrSyntax

/-- Go `strconv.ParseUint(s, 10, 64)`: the value and the error. -/
def ParseUint (s : Str) : Nat × Option NumError :=
  if s = [] then (0, some .ErrSyntax)
  else
    match parseUintLoop s 0 with
    | .ok n => (n, none)
    | .error .ErrSyntax => (0, some .ErrSyntax)
    | .error .ErrRange => (maxUint64, some .ErrRange)

/-- Go `strconv.ParseInt(s, 10, 64)`: the value and the error. -/
def ParseInt (s : Str) : Int × Option NumError :=
  match s with
  | [] => (0, some .ErrSyntax)
  | c :: cs =>
    let neg := decide (c = '-')
    let s1 := if c = '+' then cs else if c = '-' then cs else c :: cs
    match ParseUint s1 with
    | (_, some .ErrSyntax) => (0, some .ErrSyntax)
    | (un, _) =>
      let cutoff : Nat := 2 ^ 63
      if !neg && decide (un ≥ cutoff) then (((cutoff - 1 : Nat) : Int), some .ErrRange)
      else if neg && decide (un > cutoff) then (-(cutoff : Int), some .ErrRange)
      else (if neg then -(un : Int) else (un : Int), none)

/-- Decimal digits of a machine word, most significant first; `fuel` bounds the
number of digits. -/
def fmtDigits : Nat → Nat → Str
  | 0, _ => []
  | fuel + 1, n =>
    if n < 10 then [Nat.digitChar n]
    else fmtDigits fuel (n / 10) ++ [Nat.digitChar (n % 10)]

/-- Decimal rendering of an unsigned value. -/
def fmtUint (n : Nat) : Str := fmtDigits (n + 1) n

/-- The verb `%d` of `fmt.Sprintf` at an integer: a minus sign for a negative
value, then the decimal digits of the magnitude. -/
def FormatInt (n : Int) : Str :=
  if n < 0 then '-' :: fmtUint n.natAbs else fmtUint n.natAbs

/-- Go `slices.Sort` on a slice of `int64`: the ascending rearrangement. -/
def slicesSort (xs : List Int) : List Int := xs.insertionSort (· ≤ ·)

/-! ## Package `path/filepath` (Unix) -/

/-- Go `filepath.Ext`: the suffix starting at the last dot of the last path
element, empty when that element has no dot. -/
def Ext (path : Str) : Str :=
  let last := path.reverse.takeWhile (· != '/')
  if last.contains '.' then ('.' :: (last.takeWhile (· != '.')).reverse) else []

/-- Go `filepath.Base`: the last element of the path, trailing slashes removed. -/
def Base (path : Str) : Str :=
  if path = [] then ['.']
  else
    let stripped := (path.reverse.dropWhile (· == '/'))
    let last := (stripped.takeWhile (· != '/')).reverse
    if last = [] then ['/'] else last

/-! ## The collaborators: `os`, `time` and `*os.File` -/

/-- Errors surfaced by the collaborators and by `New`. -/
inductive Err where
  /-- `os.ErrInvalid`: a method called on a nil `*os.File`. -/
  | ErrInvalid
  /-- `os.ErrClosed`: the file is already closed. -/
  | ErrClosed
  /-- `os.ErrNotExist`: the path names no entry. -/
  | ErrNotExist
  /-- Any other failure of the operating system (permissions, full disk, ...). -/
  | fault
  /-- The error of `New` for an empty file name. -/
  | filenameRequired
deriving DecidableEq, Repr

/-- An open-file object (`os.File`). `written` counts the bytes written through it. -/
structure File where
  id : Nat
  name : Str
  closed : Bool
  written : Nat
deriving DecidableEq, Repr

/-- A call made to a collaborator. -/
inductive Call where
  | close (handle : Option Nat)
  | write (handle : Option Nat) (len : Nat)
  | rename (oldname newname : Str)
  | readDir
  | remove (path : Str)
  | mkdirAll
  | openFile (path : Str)
deriving DecidableEq, Repr

/-- State of the collaborators.
* `entries`: the names in the writer's directory;
* `faults`: the script of injected failures, one item per operation that reaches
  the operating system: `none` lets it succeed, `some k` makes it fail (a write
  then has transferred `k` bytes, at most the payload, before failing);
* `clock`: the successive readings of `time.Now().UnixNano()`;
* `nextId`: the identity given to the next file opened;
* `calls`: the calls made so far, oldest first. -/
structure FS where
  entries : List Str
  faults : List (Option Nat)
  clock : List Int
  nextId : Nat
  calls : List Call
deriving DecidableEq, Repr

/-- Record a call. -/
def FS.log (fs : FS) (c : Call) : FS := { fs with calls := fs.calls ++ [c] }

/-- Take the next item of the failure script. -/
def FS.nextFault (fs : FS) : Option Nat × FS :=
  match fs.faults with
  | [] => (none, fs)
  | f :: rest => (f, { fs with faults := rest })

/-- The error of an operating-system operation, from the script item. -/
def faultErr (f : Option Nat) : Option Err := f.map (fun _ => Err.fault)

/-- Method `(*os.File).Close`. A nil receiver gives `ErrInvalid`, a closed file
`ErrClosed`; otherwise the descriptor is released, also when the system call
reports a failure. -/
def osFileClose (f : Option File) (fs : FS) : Option Err × Option File × FS :=
  let fs := fs.log (.close (f.map File.id))
  match f with
  | none => (some .ErrInvalid, none, fs)
  | some h =>
    if h.closed then (some .ErrClosed, some h, fs)
    else
      let (flt, fs) := fs.nextFault
      (faultErr flt, some { h with closed := true }, fs)

/-- Method `(*os.File).Write`: the number of bytes written and the error. -/
def osFileWrite (f : Option File) (p : List UInt8) (fs : FS) :
    (Nat × Option Err) × Option File × FS :=
  let fs := fs.log (.write (f.map File.id) p.length)
  match f with
  | none => ((0, some .ErrInvalid), none, fs)
  | some h =>
    if h.closed then ((0, some .ErrClosed), some h, fs)
    else
      match fs.nextFault with
      | (none, fs) => ((p.length, none), some { h with written := h.written + p.length }, fs)
      | (some k, fs) =>
        let n := min k p.length
        ((n, some .fault), some { h with written := h.written + n }, fs)

/-- Go `os.Rename` inside the directory: the old name must exist; an entry
already carrying the new name is replaced. -/
def osRename (oldname newname : Str) (fs : FS) : Option Err × FS :=
  let fs := fs.log (.rename oldname newname)
  match fs.nextFault with
  | (some _, fs) => (some .fault, fs)
  | (none, fs) =>
    if oldname ∈ fs.entries then
      if oldname = newname then (none, fs)
      else
        (none, { fs with
          entries := newname :: (fs.entries.filter (fun e => e ≠ oldname ∧ e ≠ newname)) })
    else (some .ErrNotExist, fs)

/-- Go `os.ReadDir` of the directory: the entry names. -/
def osReadDir (fs : FS) : List Str × Option Err × FS :=
  let fs := fs.log .readDir
  match fs.nextFault with
  | (some _, fs) => ([], some .fault, fs)
  | (none, fs) => (fs.entries, none, fs)

/-- Go `os.Remove` of an entry of the directory. -/
def osRemove (path : Str) (fs : FS) : Option Err × FS :=
  let fs := fs.log (.remove path)
  match fs.nextFault with
  | (some _, fs) => (some .fault, fs)
  | (none, fs) =>
    if path ∈ fs.entries then (none, { fs with entries := fs.entries.filter (· ≠ path) })
    else (some .ErrNotExist, fs)

/-- Go `os.MkdirAll` of the writer's directory. -/
def osMkdirAll (fs : FS) : Option Err × FS :=
  let fs := fs.log .mkdirAll
  match fs.nextFault with
  | (some _, fs) => (some .fault, fs)
  | (none, fs) => (none, fs)

/-- Go `os.OpenFile(path, O_CREATE|O_WRONLY|O_APPEND, 0644)`: the entry named by
the last element of `path` is created when missing, and a new open file is
returned. -/
def osOpenFile (path : Str) (fs : FS) : (Option File × Option Err) × FS :=
  let fs := fs.log (.openFile path)
  match fs.nextFault with
  | (some _, fs) => ((none, some .fault), fs)
  | (none, fs) =>
    let name := Base path
    let h : File := { id := fs.nextId, name := name, closed := false, written := 0 }
    ((some h, none),
      { fs with
        entries := if name ∈ fs.entries then fs.entries else name :: fs.entries,
        nextId := fs.nextId + 1 })

/-- Reading `time.Now().UnixNano()`, an `int64`. -/
def timeNowUnixNano (fs : FS) : Int × FS :=
  match fs.clock with
  | [] => (0, fs)
  | t :: rest => (wrapInt64 t, { fs with clock := rest })

/-! ## The writer -/

/-- The struct `RotateWriter` (the mutex left out). `file = none` is the nil pointer. -/
structure RotateWriter where
  Filename : Str
  MaxSize : Int
  MaxBackups : Int
  AutoDirCreate : Bool
  currentSize : Int
  file : Option File
  dir : Str
  basename : Str
  ext : Str
deriving DecidableEq, Repr

/-- What `New` stores in the fields `basename` and `ext` (the only assignment to
these unexported fields). -/
def NamesDerived (w : RotateWriter) : Prop :=
  w.basename = TrimSuffix (Base w.Filename) (Ext w.Filename) ∧ w.ext = Ext w.Filename

instance (w : RotateWriter) : Decidable (NamesDerived w) := by
  unfold NamesDerived; infer_instance

/-- Method `openFile`. -/
def RotateWriter.openFile (w : RotateWriter) (fs : FS) : (Option File × Option Err) × FS :=
  if w.AutoDirCreate then
    match osMkdirAll fs with
    | (some e, fs) => ((none, some e), fs)
    | (none, fs) => osOpenFile w.Filename fs
  else osOpenFile w.Filename fs

/-- The name `fmt.Sprintf("%s-%d%s", w.basename, n, w.ext)` of a backup. -/
def backupName (basename ext : Str) (n : Int) : Str :=
  basename ++ ['-'] ++ FormatInt n ++ ext

/-- The body of the discovery loop of `rotate` at one directory entry: the
integer appended to `ints`, if any. -/
def backupStamp (basename ext name : Str) : Option Int :=
  let pfx := basename ++ ['-']
  let suffix := ext
  if HasPrefix name pfx && HasSuffix name suffix then
    let fname := TrimSuffix (TrimPrefix name pfx) suffix
    match ParseInt fname with
    | (n, none) => some n
    | (_, some _) => none
  else none

/-- The discovery loop of `rotate`: the slice `ints` after the loop. -/
def discover (basename ext : Str) (file : List Str) : List Int :=
  file.filterMap (backupStamp basename ext)

/-- The deletion loop of `rotate` over `ints[0], ..., ints[toDelete-1]`; it stops
at the first failing `os.Remove`. -/
def removeLoop (basename ext : Str) : List Int → FS → Option Err × FS
  | [], fs => (none, fs)
  | n :: rest, fs =>
    match osRemove (backupName basename ext n) fs with
    | (some e, fs) => (some e, fs)
    | (none, fs) => removeLoop basename ext rest fs

/-- The block `if w.MaxBackups > 0 { ... }` of `rotate`. -/
def RotateWriter.prune (w : RotateWriter) (fs : FS) : Option Err × FS :=
  if w.MaxBackups > 0 then
    match osReadDir fs with
    | (_, some e, fs) => (some e, fs)
    | (file, none, fs) =>
      let ints := slicesSort (discover w.basename w.ext file)
      if (ints.length : Int) > w.MaxBackups then
        let toDelete := ((ints.length : Int) - w.MaxBackups).toNat
        removeLoop w.basename w.ext (ints.take toDelete) fs
      else (none, fs)
  else (none, fs)

/-- Method `rotate`. -/
def RotateWriter.rotate (w : RotateWriter) (fs : FS) : Option Err × RotateWriter × FS :=
  match osFileClose w.file fs with
  | (some e, f, fs) => (some e, { w with file := f }, fs)
  | (none, f, fs) =>
    let w := { w with file := f }
    let currentLog := w.basename ++ w.ext
    let (t, fs) := timeNowUnixNano fs
    let backupLog := backupName w.basename w.ext t
    match osRename currentLog backupLog fs with
    | (some e, fs) => (some e, w, fs)
    | (none, fs) =>
      match w.prune fs with
      | (some e, fs) => (some e, w, fs)
      | (none, fs) =>
        match w.openFile fs with
        | ((_, some e), fs) => (some e, w, fs)
        | ((file, none), fs) => (none, { w with file := file, currentSize := 0 }, fs)

/-- The test `w.currentSize+int64(len(p)) >= int64(w.MaxSize*1024*1024)` of `Write`. -/
def RotateWriter.overThreshold (w : RotateWriter) (p : List UInt8) : Bool :=
  decide (wrapInt64 (w.currentSize + wrapInt64 (p.length : Int))
    ≥ wrapInt64 (wrapInt (wrapInt (w.MaxSize * 1024) * 1024)))

/-- The tail of `Write`, from the call of `w.file.Write(p)` on. -/
def RotateWriter.writeFile (w : RotateWriter) (p : List UInt8) (fs : FS) :
    (Nat × Option Err) × RotateWriter × FS :=
  match osFileWrite w.file p fs with
  | ((n, some e), f, fs) => ((n, some e), { w with file := f }, fs)
  | ((n, none), f, fs) =>
    ((n, none), { w with file := f, currentSize := wrapInt64 (w.currentSize + wrapInt64 (n : Int)) }, fs)

/-- Method `Write`. -/
def RotateWriter.Write (w : RotateWriter) (p : List UInt8) (fs : FS) :
    (Nat × Option Err) × RotateWriter × FS :=
  if w.overThreshold p then
    match w.rotate fs with
    | (some e, w, fs) => ((0, some e), w, fs)
    | (none, w, fs) => w.writeFile p fs
  else w.writeFile p fs

/-- Method `Close`. -/
def RotateWriter.Close (w : RotateWriter) (fs : FS) : Option Err × RotateWriter × FS :=
  match w.file with
  | some h =>
    match osFileClose (some h) fs with
    | (e, f, fs) => (e, { w with file := f }, fs)
  | none => (none, w, fs)

/-- Successive rotation cycles, `k` of them, stopping at the first error. -/
def rotateN : Nat → RotateWriter → FS → Option Err × RotateWriter × FS
  | 0, w, fs => (none, w, fs)
  | k + 1, w, fs =>
    match w.rotate fs with
    | (some e, w, fs) => (some e, w, fs)
    | (none, w, fs) => rotateN k w fs

/-- Number of entries of a listing that the discovery loop recognises. -/
def backupCount (basename ext : Str) (entries : List Str) : Nat :=
  (discover basename ext entries).length

/-! ## Definitions used in the statements -/

/-- State of the collaborators after the `Close` of `rotate`. -/
def afterClose (w : RotateWriter) (fs : FS) : FS := (osFileClose w.file fs).2.2

/-- The timestamp sampled by `rotate`. -/
def stamp (w : RotateWriter) (fs : FS) : Int := (timeNowUnixNano (afterClose w fs)).1

/-- The result of the `os.Rename` of `rotate`. -/
def renameStep (w : RotateWriter) (fs : FS) : Option Err × FS :=
  osRename (w.basename ++ w.ext) (backupName w.basename w.ext (stamp w fs))
    (timeNowUnixNano (afterClose w fs)).2

/-- The result of the pruning block of `rotate`. -/
def pruneStep (w : RotateWriter) (fs : FS) : Option Err × FS := w.prune (renameStep w fs).2

/-- The result of the `openFile` of `rotate`. -/
def openStep (w : RotateWriter) (fs : FS) : (Option File × Option Err) × FS :=
  w.openFile (pruneStep w fs).2

/-- The calls made since an earlier state. -/
def callsSince (before after : FS) : List Call := after.calls.drop before.calls.length

/-- The integers whose backups the pruning block sets out to delete. -/
def doomed (w : RotateWriter) (entries : List Str) : List Int :=
  (slicesSort (discover w.basename w.ext entries)).take
    (((slicesSort (discover w.basename w.ext entries)).length : Int) - w.MaxBackups).toNat

/-- Whether the discovery loop takes an entry for a backup. -/
def recognised (b x : Str) (e : Str) : Bool := (backupStamp b x e).isSome

/-- Two states of the collaborators that differ at most by entries the discovery
loop does not recognise. -/
def SameBackups (b x : Str) (fs fs' : FS) : Prop :=
  fs'.faults = fs.faults ∧ fs'.calls = fs.calls ∧ fs'.clock = fs.clock ∧
    fs'.nextId = fs.nextId ∧
    fs'.entries.filter (recognised b x) = fs.entries.filter (recognised b x)

/-! ## Sample writers and directories -/

/-- The writer of the tests: `test.log`, 1 MiB, two backups. -/
def testWriter : RotateWriter :=
  { Filename := "logs/test.log".toList, MaxSize := 1, MaxBackups := 2, AutoDirCreate := true,
    currentSize := 0,
    file := some { id := 0, name := "test.log".toList, closed := false, written := 0 },
    dir := "logs".toList, basename := "test".toList, ext := ".log".toList }

/-- A directory holding the active file only, no failure ahead. -/
def testFS : FS :=
  { entries := ["test.log".toList], faults := [], clock := [101, 102, 103, 104, 105],
    nextId := 1, calls := [] }

/-- A directory with the active file and two earlier backups. -/
def fullFS : FS :=
  { entries := ["test.log".toList, "test-98.log".toList, "test-99.log".toList, "notes.txt".toList],
    faults := [], clock := [101, 102], nextId := 1, calls := [] }

/-- The test writer without a limit on backups. -/
def unlimitedWriter : RotateWriter := { testWriter with MaxBackups := 0 }

/-- The directory after the rename of a cycle at time 101: three backups and a
stray file. -/
def prunableFS : FS :=
  { entries := ["test-101.log".toList, "test-98.log".toList, "test-99.log".toList,
      "notes.txt".toList],
    faults := [], clock := [], nextId := 1, calls := [] }

/-- The same backups among other stray entries. -/
def strayEntries : List Str :=
  ["test-abc.log".toList, "test-101.log".toList, "other-5.log".toList, "test-98.log".toList,
    "test-.log".toList, "test-99.log".toList, "test-7.txt".toList]

/-- The test writer with 1 MiB - 10 bytes in the active file. -/
def nearlyFull : RotateWriter := { testWriter with currentSize := 1048566 }

/-- The payload `0123456789` of the tests. -/
def tenBytes : List UInt8 := [48, 49, 50, 51, 52, 53, 54, 55, 56, 57]

/-- A writer whose active file has the largest size an `int64` can hold. -/
def hugeWriter : RotateWriter := { testWriter with currentSize := 9223372036854775807 }

/-- The collaborators when the next operation, a write, fails after four bytes. -/
def shortWriteFS : FS := { testFS with faults := [some 4] }

/-- The collaborators when the five operations of a rotation cycle succeed and the
write that follows fails after four bytes. -/
def shortWriteAfterCycleFS : FS :=
  { testFS with faults := [none, none, none, none, none, some 4] }

/-- A writer that was never opened. -/
def unopened : RotateWriter := { testWriter with file := none }

/-- A directory where the oldest backup is spelled with leading zeros. -/
def paddedFS : FS :=
  { entries := ["test.log".toList, "test-007.log".toList, "test-8.log".toList],
    faults := [], clock := [101], nextId := 1, calls := [] }

/-! ## Facts about the string helpers -/

theorem HasPrefix_append (p t : Str) : HasPrefix (p ++ t) p = true := by
  simp [HasPrefix]

theorem TrimPrefix_append (p t : Str) : TrimPrefix (p ++ t) p = t := by
  simp [TrimPrefix, HasPrefix_append]

theorem HasSuffix_append (t x : Str) : HasSuffix (t ++ x) x = true := by
  simp [HasSuffix]

theorem TrimSuffix_append (t x : Str) : TrimSuffix (t ++ x) x = t := by
  simp [TrimSuffix, HasSuffix_append]

theorem HasPrefix_iff (s p : Str) : HasPrefix s p = true ↔ ∃ t, s = p ++ t := by
  constructor
  · intro h
    simp only [HasPrefix, Bool.and_eq_true, decide_eq_true_eq, beq_iff_eq] at h
    refine ⟨s.drop p.length, ?_⟩
    conv_lhs => rw [← List.take_append_drop p.length s]
    rw [h.2]
  · rintro ⟨t, rfl⟩
    exact HasPrefix_append p t

theorem TrimSuffix_eq_or (s x : Str) : s = TrimSuffix s x ++ x ∨ s = TrimSuffix s x := by
  unfold TrimSuffix
  by_cases h : HasSuffix s x = true
  · left
    simp only [h, if_true]
    simp only [HasSuffix, Bool.and_eq_true, decide_eq_true_eq, beq_iff_eq] at h
    conv_lhs => rw [← List.take_append_drop (s.length - x.length) s]
    rw [h.2]
  · right
    simp [h]

/-! ## Facts about formatting and parsing integers -/

theorem digitChar_toNat (d : Nat) (h : d < 10) : (Nat.digitChar d).toNat = 48 + d := by
  interval_cases d <;> rfl

theorem parseUintLoop_snoc (g : Nat → Except NumError Nat) (c : Char)
    (hg : ∀ m, parseUintLoop [c] m = g m) (s : Str) (a : Nat) :
    parseUintLoop (s ++ [c]) a = (parseUintLoop s a).bind g := by
  induction s generalizing a with
  | nil => exact hg a
  | cons x xs ih =>
    simp only [List.cons_append, parseUintLoop]
    split_ifs <;> first | rfl | exact ih _

theorem parseUintLoop_append (s : Str) (c : Char) (a : Nat) :
    parseUintLoop (s ++ [c]) a = (parseUintLoop s a).bind (fun m => parseUintLoop [c] m) :=
  parseUintLoop_snoc _ c (fun _ => rfl) s a

theorem parseUintLoop_digit (d m : Nat) (hd : d < 10) (hm : m * 10 + d ≤ maxUint64) :
    parseUintLoop [Nat.digitChar d] m = .ok (m * 10 + d) := by
  have h1 := digitChar_toNat d hd
  have hmax : maxUint64 = 18446744073709551615 := by rfl
  rw [hmax] at hm
  simp only [parseUintLoop, h1, hmax]
  have e1 : 48 + d - 48 = d := by omega
  have e2 : (m * 10 + d) % 2 ^ 64 = m * 10 + d := Nat.mod_eq_of_lt (by omega)
  rw [e1, e2]
  have c1 : (48 ≤ 48 + d ∧ 48 + d ≤ 57) := by omega
  have c2 : ¬ (m ≥ 18446744073709551615 / 10 + 1) := by omega
  have c3 : ¬ (m * 10 + d < m * 10 ∨ m * 10 + d > 18446744073709551615) := by omega
  simp only [c1, c2, c3, and_self, if_true, if_false]

theorem parseUintLoop_fmtDigits (fuel n : Nat) (hf : n < fuel) (hn : n ≤ maxUint64) :
    parseUintLoop (fmtDigits fuel n) 0 = .ok n := by
  induction fuel generalizing n with
  | zero => omega
  | succ f ih =>
    unfold fmtDigits
    by_cases h10 : n < 10
    · simp only [h10, if_true]
      have := parseUintLoop_digit n 0 h10 (by simpa using hn)
      simpa using this
    · simp only [h10, if_false]
      rw [parseUintLoop_append, ih (n / 10) (by omega) (by omega)]
      have := parseUintLoop_digit (n % 10) (n / 10) (Nat.mod_lt _ (by omega))
        (by have := Nat.div_add_mod n 10; omega)
      have e : n / 10 * 10 + n % 10 = n := by have := Nat.div_add_mod n 10; omega
      rw [e] at this
      exact this

theorem fmtDigits_ne_nil (fuel n : Nat) (hf : n < fuel) : fmtDigits fuel n ≠ [] := by
  cases fuel with
  | zero => omega
  | succ f =>
    unfold fmtDigits
    split_ifs <;> simp

theorem fmtDigits_head (fuel n : Nat) (hf : n < fuel) :
    ∃ c cs, fmtDigits fuel n = c :: cs ∧ 48 ≤ c.toNat ∧ c.toNat ≤ 57 := by
  induction fuel generalizing n with
  | zero => omega
  | succ f ih =>
    unfold fmtDigits
    by_cases h10 : n < 10
    · simp only [h10, if_true]
      exact ⟨_, [], rfl, by rw [digitChar_toNat n h10]; omega, by rw [digitChar_toNat n h10]; omega⟩
    · simp only [h10, if_false]
      obtain ⟨c, cs, h, h1, h2⟩ := ih (n / 10) (by omega)
      exact ⟨c, cs ++ [Nat.digitChar (n % 10)], by rw [h]; rfl, h1, h2⟩

theorem ParseUint_fmtUint (n : Nat) (hn : n ≤ maxUint64) : ParseUint (fmtUint n) = (n, none) := by
  unfold ParseUint fmtUint
  rw [if_neg (fmtDigits_ne_nil _ _ (by omega)), parseUintLoop_fmtDigits _ _ (by omega) hn]

/-- Parsing the `%d` rendering of an `int64` gives the value back. -/
theorem ParseInt_FormatInt (t : Int) (h1 : -2 ^ 63 ≤ t) (h2 : t < 2 ^ 63) :
    ParseInt (FormatInt t) = (t, none) := by
  have hmax : maxUint64 = 18446744073709551615 := by rfl
  unfold FormatInt
  by_cases hneg : t < 0
  · simp only [hneg, if_true, ParseInt]
    have hb : t.natAbs ≤ maxUint64 := by rw [hmax]; omega
    simp only [show ('-' : Char) ≠ '+' by decide, if_false, if_true, ParseUint_fmtUint _ hb]
    have c2 : ¬ (t.natAbs > 2 ^ 63) := by omega
    simp only [decide_True, Bool.not_true, Bool.false_and, Bool.true_and, if_true,
      decide_eq_true_eq, Bool.false_eq_true, if_false, if_neg c2]
    have e : -((t.natAbs : Nat) : Int) = t := by omega
    rw [e]
  · simp only [hneg, if_false]
    have hb : t.natAbs ≤ maxUint64 := by rw [hmax]; omega
    obtain ⟨c, cs, hcs, hc1, hc2⟩ := fmtDigits_head (t.natAbs + 1) t.natAbs (by omega)
    have hfu : fmtUint t.natAbs = c :: cs := hcs
    have hplus : c ≠ '+' := by
      intro h; rw [h] at hc1; revert hc1; decide
    have hminus : c ≠ '-' := by
      intro h; rw [h] at hc1; revert hc1; decide
    rw [hfu]
    simp only [ParseInt, hplus, hminus, if_false, ← hfu, ParseUint_fmtUint _ hb]
    have c1 : ¬ (t.natAbs ≥ 2 ^ 63) := by omega
    have e : ((t.natAbs : Nat) : Int) = t := by omega
    simp only [decide_False, Bool.not_false, Bool.true_and, Bool.false_and,
      decide_eq_true_eq, Bool.false_eq_true, if_false, if_neg c1, e]

theorem ParseInt_range (s : Str) (n : Int) (h : ParseInt s = (n, none)) :
    -2 ^ 63 ≤ n ∧ n < 2 ^ 63 := by
  unfold ParseInt at h
  cases s with
  | nil => simp at h
  | cons c cs =>
    simp only at h
    split at h
    · simp at h
    · rename_i un e _
      split_ifs at h with h1 h2 h3
      · simp at h
      · simp at h
      · simp only [Prod.mk.injEq, and_true] at h
        simp only [Bool.and_eq_true, decide_eq_true_eq, not_and] at h2
        have := h2 (by simpa using h3)
        omega
      · simp only [Prod.mk.injEq, and_true] at h
        simp only [Bool.and_eq_true, Bool.not_eq_true', decide_eq_false_iff_not,
          decide_eq_true_eq, not_and] at h1
        have := h1 (by simpa using h3)
        omega

theorem wrapInt64_range (x : Int) : -2 ^ 63 ≤ wrapInt64 x ∧ wrapInt64 x < 2 ^ 63 := by
  unfold wrapInt64
  constructor <;> omega

theorem wrapInt64_of_range (x : Int) (h1 : -2 ^ 63 ≤ x) (h2 : x < 2 ^ 63) : wrapInt64 x = x := by
  unfold wrapInt64
  omega

/-! ## Facts about backup names and the discovery loop -/

/-- The discovery loop recognises the name of a backup and reads its stamp back. -/
theorem backupStamp_backupName (b x : Str) (t : Int) (h1 : -2 ^ 63 ≤ t) (h2 : t < 2 ^ 63) :
    backupStamp b x (backupName b x t) = some t := by
  unfold backupStamp backupName
  have e1 : b ++ ['-'] ++ FormatInt t ++ x = (b ++ ['-']) ++ (FormatInt t ++ x) := by
    simp [List.append_assoc]
  have e2 : b ++ ['-'] ++ FormatInt t ++ x = (b ++ ['-'] ++ FormatInt t) ++ x := rfl
  have hp : HasPrefix (b ++ ['-'] ++ FormatInt t ++ x) (b ++ ['-']) = true := by
    rw [e1]; exact HasPrefix_append _ _
  have hs : HasSuffix (b ++ ['-'] ++ FormatInt t ++ x) x = true := by
    rw [e2]; exact HasSuffix_append _ _
  have ht : TrimSuffix (TrimPrefix (b ++ ['-'] ++ FormatInt t ++ x) (b ++ ['-'])) x
      = FormatInt t := by
    rw [e1, TrimPrefix_append, TrimSuffix_append]
  simp only [hp, hs, Bool.and_self, if_true, ht, ParseInt_FormatInt t h1 h2]

theorem backupStamp_range (b x name : Str) (n : Int) (h : backupStamp b x name = some n) :
    -2 ^ 63 ≤ n ∧ n < 2 ^ 63 := by
  unfold backupStamp at h
  simp only at h
  split_ifs at h
  split at h
  · rename_i m hm
    simp only [Option.some.injEq] at h
    subst h
    exact ParseInt_range _ _ hm
  · simp at h

theorem backupName_inj (b x : Str) (n m : Int) (hn : -2 ^ 63 ≤ n ∧ n < 2 ^ 63)
    (hm : -2 ^ 63 ≤ m ∧ m < 2 ^ 63) (h : backupName b x n = backupName b x m) : n = m := by
  have h1 := backupStamp_backupName b x n hn.1 hn.2
  have h2 := backupStamp_backupName b x m hm.1 hm.2
  rw [h, h2] at h1
  exact (Option.some.inj h1).symm

theorem discover_range (b x : Str) (l : List Str) (n : Int) (h : n ∈ discover b x l) :
    -2 ^ 63 ≤ n ∧ n < 2 ^ 63 := by
  unfold discover at h
  obtain ⟨e, _, he⟩ := List.mem_filterMap.1 h
  exact backupStamp_range b x e n he

theorem Ext_shape (path : Str) : Ext path = [] ∨ ∃ r, Ext path = '.' :: r := by
  unfold Ext
  simp only
  split_ifs
  · exact Or.inr ⟨_, rfl⟩
  · exact Or.inl rfl

/-- The active file of a writer made by `New` is not taken for a backup. -/
theorem backupStamp_active (w : RotateWriter) (h : NamesDerived w) :
    backupStamp w.basename w.ext (Base w.Filename) = none := by
  obtain ⟨hb, hx⟩ := h
  have hno : HasPrefix (Base w.Filename) (w.basename ++ ['-']) = false := by
    rcases TrimSuffix_eq_or (Base w.Filename) (Ext w.Filename) with e | e
    · rw [← hb, ← hx] at e
      rw [e]
      rcases Ext_shape w.Filename with h0 | ⟨r, hr⟩
      · rw [hx, h0]
        simp [HasPrefix]
      · rw [hx, hr, Bool.eq_false_iff]
        intro hp
        obtain ⟨t, ht⟩ := (HasPrefix_iff _ _).1 hp
        rw [List.append_assoc] at ht
        have := List.append_cancel_left ht
        simp at this
    · rw [← hb] at e
      rw [e]
      simp [HasPrefix]
  unfold backupStamp
  simp [hno]

/-! ## Facts about the collaborators -/

theorem nextFault_entries (fs : FS) : fs.nextFault.2.entries = fs.entries := by
  unfold FS.nextFault; split <;> rfl

theorem nextFault_calls (fs : FS) : fs.nextFault.2.calls = fs.calls := by
  unfold FS.nextFault; split <;> rfl

theorem nextFault_clock (fs : FS) : fs.nextFault.2.clock = fs.clock := by
  unfold FS.nextFault; split <;> rfl

theorem nextFault_nextId (fs : FS) : fs.nextFault.2.nextId = fs.nextId := by
  unfold FS.nextFault; split <;> rfl

theorem osRemove_calls (path : Str) (fs : FS) :
    (osRemove path fs).2.calls = fs.calls ++ [Call.remove path] := by
  have h := nextFault_calls (fs.log (.remove path))
  unfold osRemove
  simp only
  split
  · rename_i e; rw [e] at h; exact h
  · rename_i e; rw [e] at h
    split <;> exact h

theorem osRemove_ok (path : Str) (fs : FS) (h : (osRemove path fs).1 = none) :
    path ∈ fs.entries ∧ (osRemove path fs).2.entries = fs.entries.filter (· ≠ path) := by
  have he := nextFault_entries (fs.log (.remove path))
  rcases hnf : (fs.log (.remove path)).nextFault with ⟨flt, fs1⟩
  rw [hnf] at he
  have he' : fs1.entries = fs.entries := he
  unfold osRemove at h ⊢
  simp only [hnf] at h ⊢
  cases flt with
  | some k => simp at h
  | none =>
    simp only at h ⊢
    split_ifs at h with hm
    · rw [if_pos hm]
      rw [he'] at hm
      exact ⟨hm, by simp [he']⟩

theorem osRemove_entries (path : Str) (fs : FS) :
    (osRemove path fs).2.entries = fs.entries ∨
      (osRemove path fs).2.entries = fs.entries.filter (· ≠ path) := by
  have he := nextFault_entries (fs.log (.remove path))
  unfold osRemove
  simp only
  split
  · rename_i e; rw [e] at he; exact Or.inl he
  · rename_i fs1 e
    rw [e] at he
    have he' : fs1.entries = fs.entries := he
    split_ifs
    · right; simp [he']
    · left; exact he'

theorem osReadDir_calls (fs : FS) : (osReadDir fs).2.2.calls = fs.calls ++ [Call.readDir] := by
  have h := nextFault_calls (fs.log .readDir)
  unfold osReadDir
  simp only
  split <;> (rename_i e; rw [e] at h; exact h)

theorem osReadDir_entries (fs : FS) : (osReadDir fs).2.2.entries = fs.entries := by
  have h := nextFault_entries (fs.log .readDir)
  unfold osReadDir
  simp only
  split <;> (rename_i e; rw [e] at h; exact h)

theorem osReadDir_ok (fs : FS) (h : (osReadDir fs).2.1 = none) :
    (osReadDir fs).1 = fs.entries := by
  have he := nextFault_entries (fs.log .readDir)
  unfold osReadDir at h ⊢
  simp only at h ⊢
  split at h
  · simp at h
  · rename_i e; rw [e] at he; simp only [e]; exact he

theorem osMkdirAll_calls (fs : FS) : (osMkdirAll fs).2.calls = fs.calls ++ [Call.mkdirAll] := by
  have h := nextFault_calls (fs.log .mkdirAll)
  unfold osMkdirAll
  simp only
  split <;> (rename_i e; rw [e] at h; exact h)

theorem osMkdirAll_entries (fs : FS) : (osMkdirAll fs).2.entries = fs.entries := by
  have h := nextFault_entries (fs.log .mkdirAll)
  unfold osMkdirAll
  simp only
  split <;> (rename_i e; rw [e] at h; exact h)

theorem osOpenFile_calls (path : Str) (fs : FS) :
    (osOpenFile path fs).2.calls = fs.calls ++ [Call.openFile path] := by
  have h := nextFault_calls (fs.log (.openFile path))
  unfold osOpenFile
  simp only
  split <;> (rename_i e; rw [e] at h; exact h)

theorem osOpenFile_entries (path : Str) (fs : FS) :
    (osOpenFile path fs).2.entries = fs.entries ∨
      (osOpenFile path fs).2.entries = Base path :: fs.entries := by
  have h := nextFault_entries (fs.log (.openFile path))
  unfold osOpenFile
  simp only
  split
  · rename_i e; rw [e] at h; exact Or.inl h
  · rename_i fs1 e
    rw [e] at h
    have h' : fs1.entries = fs.entries := h
    simp only [h']
    split_ifs
    · exact Or.inl rfl
    · exact Or.inr rfl

theorem osOpenFile_ok (path : Str) (fs : FS) (h : (osOpenFile path fs).1.2 = none) :
    (osOpenFile path fs).1.1 =
        some { id := fs.nextId, name := Base path, closed := false, written := 0 } ∧
      Base path ∈ (osOpenFile path fs).2.entries := by
  have he := nextFault_entries (fs.log (.openFile path))
  have hi := nextFault_nextId (fs.log (.openFile path))
  unfold osOpenFile at h ⊢
  simp only at h ⊢
  split at h
  · simp at h
  · rename_i fs1 e
    rw [e] at he hi
    have hi' : fs1.nextId = fs.nextId := hi
    simp only [e, hi', true_and]
    split_ifs with hm
    · exact hm
    · simp

theorem osRename_calls (a b : Str) (fs : FS) :
    (osRename a b fs).2.calls = fs.calls ++ [Call.rename a b] := by
  have h := nextFault_calls (fs.log (.rename a b))
  unfold osRename
  simp only
  split
  · rename_i e; rw [e] at h; exact h
  · rename_i e; rw [e] at h
    split_ifs <;> exact h

theorem osRename_ok (a b : Str) (fs : FS) (hab : a ≠ b) (h : (osRename a b fs).1 = none) :
    a ∈ fs.entries ∧
      (osRename a b fs).2.entries = b :: fs.entries.filter (fun e => e ≠ a ∧ e ≠ b) := by
  have he := nextFault_entries (fs.log (.rename a b))
  rcases hnf : (fs.log (.rename a b)).nextFault with ⟨flt, fs1⟩
  rw [hnf] at he
  have he' : fs1.entries = fs.entries := he
  unfold osRename at h ⊢
  simp only [hnf] at h ⊢
  cases flt with
  | some k => simp at h
  | none =>
    simp only at h ⊢
    split_ifs at h with hm
    · rw [if_pos hm, if_neg hab]
      exact ⟨he' ▸ hm, by simp [he']⟩

theorem osRename_entries_err (a b : Str) (fs : FS) (h : (osRename a b fs).1 ≠ none) :
    (osRename a b fs).2.entries = fs.entries := by
  have he := nextFault_entries (fs.log (.rename a b))
  unfold osRename at h ⊢
  simp only at h ⊢
  split
  · rename_i e; rw [e] at he; exact he
  · rename_i fs1 e
    rw [e] at he h
    simp only at h
    split_ifs at h ⊢ <;> first | exact he | simp at h

theorem osFileClose_calls (f : Option File) (fs : FS) :
    (osFileClose f fs).2.2.calls = fs.calls ++ [Call.close (f.map File.id)] := by
  have h := nextFault_calls (fs.log (.close (f.map File.id)))
  unfold osFileClose
  simp only
  split
  · rfl
  · split_ifs
    · rfl
    · exact h

theorem osFileClose_entries (f : Option File) (fs : FS) :
    (osFileClose f fs).2.2.entries = fs.entries := by
  have h := nextFault_entries (fs.log (.close (f.map File.id)))
  unfold osFileClose
  simp only
  split
  · rfl
  · split_ifs
    · rfl
    · exact h

theorem osFileClose_clock (f : Option File) (fs : FS) :
    (osFileClose f fs).2.2.clock = fs.clock := by
  have h := nextFault_clock (fs.log (.close (f.map File.id)))
  unfold osFileClose
  simp only
  split
  · rfl
  · split_ifs
    · rfl
    · exact h

theorem timeNow_entries (fs : FS) : (timeNowUnixNano fs).2.entries = fs.entries := by
  unfold timeNowUnixNano; split <;> rfl

theorem timeNow_calls (fs : FS) : (timeNowUnixNano fs).2.calls = fs.calls := by
  unfold timeNowUnixNano; split <;> rfl

theorem timeNow_range (fs : FS) :
    -2 ^ 63 ≤ (timeNowUnixNano fs).1 ∧ (timeNowUnixNano fs).1 < 2 ^ 63 := by
  unfold timeNowUnixNano
  split
  · constructor <;> simp
  · exact wrapInt64_range _

theorem timeNow_fst_congr (fs fs' : FS) (h : fs'.clock = fs.clock) :
    (timeNowUnixNano fs').1 = (timeNowUnixNano fs).1 := by
  unfold timeNowUnixNano
  rw [h]
  split <;> rfl

/-! ## The stages of a rotation cycle -/

/-- The outcome of `rotate`, stage by stage. -/
theorem rotate_cases (w : RotateWriter) (fs : FS) :
    ((osFileClose w.file fs).1 ≠ none ∧
      w.rotate fs = ((osFileClose w.file fs).1,
        { w with file := (osFileClose w.file fs).2.1 }, afterClose w fs)) ∨
    ((osFileClose w.file fs).1 = none ∧ (renameStep w fs).1 ≠ none ∧
      w.rotate fs = ((renameStep w fs).1,
        { w with file := (osFileClose w.file fs).2.1 }, (renameStep w fs).2)) ∨
    ((osFileClose w.file fs).1 = none ∧ (renameStep w fs).1 = none ∧
      (pruneStep w fs).1 ≠ none ∧
      w.rotate fs = ((pruneStep w fs).1,
        { w with file := (osFileClose w.file fs).2.1 }, (pruneStep w fs).2)) ∨
    ((osFileClose w.file fs).1 = none ∧ (renameStep w fs).1 = none ∧
      (pruneStep w fs).1 = none ∧ (openStep w fs).1.2 ≠ none ∧
      w.rotate fs = ((openStep w fs).1.2,
        { w with file := (osFileClose w.file fs).2.1 }, (openStep w fs).2)) ∨
    ((osFileClose w.file fs).1 = none ∧ (renameStep w fs).1 = none ∧
      (pruneStep w fs).1 = none ∧ (openStep w fs).1.2 = none ∧
      w.rotate fs = (none,
        { w with file := (openStep w fs).1.1, currentSize := 0 }, (openStep w fs).2)) := by
  unfold openStep pruneStep renameStep stamp afterClose
  unfold RotateWriter.rotate
  rcases hc : osFileClose w.file fs with ⟨ce, f1, fs1⟩
  cases ce with
  | some e => left; simp
  | none =>
    right
    simp only
    rcases hr : osRename (w.basename ++ w.ext)
      (backupName w.basename w.ext (timeNowUnixNano fs1).1) (timeNowUnixNano fs1).2 with ⟨re, fs3⟩
    cases re with
    | some e => left; simp
    | none =>
      right
      simp only
      have hp0 : RotateWriter.prune { w with file := f1 } fs3 = w.prune fs3 := rfl
      rw [hp0]
      rcases hp : w.prune fs3 with ⟨pe, fs4⟩
      cases pe with
      | some e => left; simp
      | none =>
        right
        simp only
        have ho0 : RotateWriter.openFile { w with file := f1 } fs4 = w.openFile fs4 := rfl
        rw [ho0]
        rcases ho : w.openFile fs4 with ⟨⟨file, oe⟩, fs5⟩
        cases oe with
        | some e => left; simp
        | none => right; simp

/-! ## The deletion loop and the pruning block -/

theorem callsSince_of_append (before after : FS) (new : List Call)
    (h : after.calls = before.calls ++ new) : callsSince before after = new := by
  unfold callsSince
  rw [h, List.drop_left]

theorem discover_cons (b x : Str) (e : Str) (es : List Str) :
    discover b x (e :: es) =
      match backupStamp b x e with
      | some n => n :: discover b x es
      | none => discover b x es := by
  unfold discover
  rw [List.filterMap_cons]
  cases backupStamp b x e <;> rfl

theorem backupCount_filter_le (b x : Str) (p : Str → Bool) (l : List Str) :
    backupCount b x (l.filter p) ≤ backupCount b x l := by
  unfold backupCount
  induction l with
  | nil => simp
  | cons e es ih =>
    rw [List.filter_cons]
    split_ifs
    · rw [discover_cons, discover_cons]
      cases backupStamp b x e <;> simp [ih]
    · rw [discover_cons]
      cases backupStamp b x e
      · exact ih
      · simp only [List.length_cons]; omega

theorem backupCount_erase (b x path : Str) (n : Int) (l : List Str) (hm : path ∈ l)
    (hs : backupStamp b x path = some n) :
    backupCount b x (l.filter (· ≠ path)) + 1 ≤ backupCount b x l := by
  induction l with
  | nil => simp at hm
  | cons e es ih =>
    by_cases he : e = path
    · subst he
      have h1 := backupCount_filter_le b x (· ≠ e) es
      have h2 : (e :: es).filter (· ≠ e) = es.filter (· ≠ e) := by simp
      rw [h2]
      unfold backupCount at h1 ⊢
      rw [discover_cons, hs]
      simp only [List.length_cons]
      omega
    · have hm' : path ∈ es := by
        rcases List.mem_cons.1 hm with h | h
        · exact absurd h.symm he
        · exact h
      have ih' := ih hm'
      have h2 : (e :: es).filter (· ≠ path) = e :: es.filter (· ≠ path) := by simp [he]
      rw [h2]
      unfold backupCount at ih' ⊢
      rw [discover_cons, discover_cons]
      cases backupStamp b x e
      · exact ih'
      · simp only [List.length_cons]; omega

/-- The calls of the deletion loop: one `os.Remove` per integer, in order, up to
the first failure. -/
theorem removeLoop_calls (b x : Str) (l : List Int) (fs : FS) :
    ∃ l', l' <+: l ∧
      (removeLoop b x l fs).2.calls
        = fs.calls ++ l'.map (fun n => Call.remove (backupName b x n)) := by
  induction l generalizing fs with
  | nil => exact ⟨[], List.prefix_refl _, by simp [removeLoop]⟩
  | cons n rest ih =>
    have hc := osRemove_calls (backupName b x n) fs
    rcases hr : osRemove (backupName b x n) fs with ⟨err, fs1⟩
    rw [hr] at hc
    simp only at hc
    unfold removeLoop
    rw [hr]
    cases err with
    | some e =>
      refine ⟨[n], ?_, ?_⟩
      · simp
      · simpa using hc
    | none =>
      obtain ⟨l', hl', hcalls⟩ := ih fs1
      refine ⟨n :: l', ?_, ?_⟩
      · exact (List.prefix_cons_inj n).2 hl'
      · simp only [hcalls, hc, List.map_cons, List.append_assoc, List.singleton_append]

/-- A deletion loop that completes has removed one recognised entry per integer. -/
theorem removeLoop_count (b x : Str) (l : List Int) (fs : FS)
    (hrange : ∀ n ∈ l, -2 ^ 63 ≤ n ∧ n < 2 ^ 63)
    (h : (removeLoop b x l fs).1 = none) :
    backupCount b x (removeLoop b x l fs).2.entries + l.length ≤ backupCount b x fs.entries := by
  induction l generalizing fs with
  | nil => simp [removeLoop]
  | cons n rest ih =>
    have hok := osRemove_ok (backupName b x n) fs
    rcases hr : osRemove (backupName b x n) fs with ⟨err, fs1⟩
    rw [hr] at hok
    unfold removeLoop at h ⊢
    rw [hr] at h ⊢
    cases err with
    | some e => simp at h
    | none =>
      simp only at h ⊢
      obtain ⟨hm, he⟩ := hok rfl
      simp only at he
      have hn := hrange n (List.mem_cons_self _ _)
      have h1 := backupCount_erase b x _ n fs.entries hm
        (backupStamp_backupName b x n hn.1 hn.2)
      have h2 := ih fs1 (fun m hm => hrange m (List.mem_cons_of_mem _ hm)) h
      rw [he] at h2
      simp only [List.length_cons]
      omega

/-- The deletion loop removes nothing but the entries it names. -/
theorem removeLoop_entries (b x : Str) (l : List Int) (fs : FS) (e : Str) :
    (e ∈ (removeLoop b x l fs).2.entries → e ∈ fs.entries) ∧
    (e ∈ fs.entries → (∀ n ∈ l, e ≠ backupName b x n) →
      e ∈ (removeLoop b x l fs).2.entries) := by
  induction l generalizing fs with
  | nil => simp [removeLoop]
  | cons n rest ih =>
    have hen := osRemove_entries (backupName b x n) fs
    rcases hr : osRemove (backupName b x n) fs with ⟨err, fs1⟩
    rw [hr] at hen
    simp only at hen
    unfold removeLoop
    rw [hr]
    have hsub : e ∈ fs1.entries → e ∈ fs.entries := by
      intro h
      rcases hen with h1 | h1
      · rw [h1] at h; exact h
      · rw [h1] at h; exact (List.mem_filter.1 h).1
    have hkeep : e ∈ fs.entries → e ≠ backupName b x n → e ∈ fs1.entries := by
      intro h hne
      rcases hen with h1 | h1
      · rw [h1]; exact h
      · rw [h1]; exact List.mem_filter.2 ⟨h, by simpa using hne⟩
    cases err with
    | some err =>
      exact ⟨hsub, fun h hall => hkeep h (hall n (List.mem_cons_self _ _))⟩
    | none =>
      simp only
      obtain ⟨i1, i2⟩ := ih fs1
      exact ⟨fun h => hsub (i1 h), fun h hall =>
        i2 (hkeep h (hall n (List.mem_cons_self _ _)))
          (fun m hm => hall m (List.mem_cons_of_mem _ hm))⟩

theorem slicesSort_length (xs : List Int) : (slicesSort xs).length = xs.length := by
  unfold slicesSort
  exact List.length_insertionSort _ _

theorem slicesSort_mem (xs : List Int) (n : Int) : n ∈ slicesSort xs ↔ n ∈ xs := by
  unfold slicesSort
  exact (List.perm_insertionSort _ xs).mem_iff

theorem doomed_range (w : RotateWriter) (entries : List Str) (n : Int)
    (h : n ∈ doomed w entries) : -2 ^ 63 ≤ n ∧ n < 2 ^ 63 := by
  unfold doomed at h
  exact discover_range w.basename w.ext entries n
    ((slicesSort_mem _ _).1 (List.mem_of_mem_take h))

/-- The pruning block without backups limit does nothing. -/
theorem prune_off (w : RotateWriter) (fs : FS) (h : w.MaxBackups ≤ 0) :
    w.prune fs = (none, fs) := by
  unfold RotateWriter.prune
  rw [if_neg (by omega)]

/-- The pruning block, when the limit is positive and the listing succeeds. -/
theorem prune_on (w : RotateWriter) (fs : FS) (h : 0 < w.MaxBackups)
    (hr : (osReadDir fs).2.1 = none) :
    w.prune fs =
      if ((slicesSort (discover w.basename w.ext fs.entries)).length : Int) > w.MaxBackups then
        removeLoop w.basename w.ext (doomed w fs.entries) (osReadDir fs).2.2
      else (none, (osReadDir fs).2.2) := by
  have hl := osReadDir_ok fs hr
  unfold RotateWriter.prune doomed
  rw [if_pos h]
  rcases hrd : osReadDir fs with ⟨file, err, fs1⟩
  rw [hrd] at hl hr
  simp only at hl hr
  subst hr
  subst hl
  rfl

theorem prune_listing_fails (w : RotateWriter) (fs : FS) (h : 0 < w.MaxBackups)
    (hr : (osReadDir fs).2.1 ≠ none) :
    w.prune fs = ((osReadDir fs).2.1, (osReadDir fs).2.2) := by
  unfold RotateWriter.prune
  rw [if_pos h]
  rcases hrd : osReadDir fs with ⟨file, err, fs1⟩
  rw [hrd] at hr
  cases err with
  | none => simp at hr
  | some e => rfl

theorem doomed_length (w : RotateWriter) (entries : List Str) (h : 0 < w.MaxBackups)
    (hlen : ((slicesSort (discover w.basename w.ext entries)).length : Int) > w.MaxBackups) :
    ((doomed w entries).length : Int) + w.MaxBackups = backupCount w.basename w.ext entries := by
  unfold doomed backupCount
  rw [List.length_take]
  rw [slicesSort_length] at hlen ⊢
  omega

/-- After a pruning block that completes, at most `MaxBackups` entries are
recognised as backups. -/
theorem prune_count (w : RotateWriter) (fs : FS) (h : 0 < w.MaxBackups)
    (hok : (w.prune fs).1 = none) :
    (backupCount w.basename w.ext (w.prune fs).2.entries : Int) ≤ w.MaxBackups := by
  by_cases hr : (osReadDir fs).2.1 = none
  · have he := osReadDir_entries fs
    rw [prune_on w fs h hr] at hok ⊢
    split_ifs at hok ⊢ with hlen
    · have hc := removeLoop_count w.basename w.ext (doomed w fs.entries) (osReadDir fs).2.2
        (fun n hn => doomed_range w fs.entries n hn) hok
      have hd := doomed_length w fs.entries h hlen
      rw [he] at hc
      omega
    · simp only [he]
      unfold backupCount
      rw [slicesSort_length] at hlen
      omega
  · rw [prune_listing_fails w fs h hr] at hok
    exact absurd hok hr

/-- The calls of the pruning block: every `os.Remove` names the backup of one of
the integers to delete. -/
theorem prune_calls (w : RotateWriter) (fs : FS) :
    ∃ new, (w.prune fs).2.calls = fs.calls ++ new ∧
      (∀ p, Call.remove p ∈ new →
        0 < w.MaxBackups ∧ ∃ n ∈ doomed w fs.entries, p = backupName w.basename w.ext n) ∧
      (∀ c ∈ new, c = Call.readDir ∨ ∃ p, c = Call.remove p) := by
  by_cases h : 0 < w.MaxBackups
  · have hc := osReadDir_calls fs
    by_cases hr : (osReadDir fs).2.1 = none
    · rw [prune_on w fs h hr]
      split_ifs
      · obtain ⟨l', hl', hcalls⟩ :=
          removeLoop_calls w.basename w.ext (doomed w fs.entries) (osReadDir fs).2.2
        refine ⟨Call.readDir :: l'.map (fun n => Call.remove (backupName w.basename w.ext n)),
          ?_, ?_, ?_⟩
        · rw [hcalls, hc]; simp
        · intro p hp
          simp only [List.mem_cons, List.mem_map, Call.remove.injEq, false_or] at hp
          rcases hp with hp | ⟨n, hn, rfl⟩
          · cases hp
          · exact ⟨h, n, hl'.subset hn, rfl⟩
        · intro c hcm
          simp only [List.mem_cons, List.mem_map] at hcm
          rcases hcm with rfl | ⟨n, _, rfl⟩
          · exact Or.inl rfl
          · exact Or.inr ⟨_, rfl⟩
      · exact ⟨[Call.readDir], hc, by simp, by simp⟩
    · rw [prune_listing_fails w fs h hr]
      exact ⟨[Call.readDir], hc, by simp, by simp⟩
  · rw [prune_off w fs (by omega)]
    exact ⟨[], by simp, by simp, by simp⟩

/-- The pruning block removes nothing but backups of the integers to delete. -/
theorem prune_entries (w : RotateWriter) (fs : FS) (e : Str) :
    (e ∈ (w.prune fs).2.entries → e ∈ fs.entries) ∧
    (e ∈ fs.entries → (∀ n ∈ doomed w fs.entries, e ≠ backupName w.basename w.ext n) →
      e ∈ (w.prune fs).2.entries) := by
  by_cases h : 0 < w.MaxBackups
  · have he := osReadDir_entries fs
    by_cases hr : (osReadDir fs).2.1 = none
    · rw [prune_on w fs h hr]
      split_ifs
      · have := removeLoop_entries w.basename w.ext (doomed w fs.entries) (osReadDir fs).2.2 e
        rw [he] at this
        exact this
      · simp only [he]
        exact ⟨id, fun h _ => h⟩
    · rw [prune_listing_fails w fs h hr]
      simp only [he]
      exact ⟨id, fun h _ => h⟩
  · rw [prune_off w fs (by omega)]
    exact ⟨id, fun h _ => h⟩

/-- An entry that the discovery loop does not recognise survives the pruning block. -/
theorem prune_keeps_unrecognised (w : RotateWriter) (fs : FS) (e : Str)
    (hs : backupStamp w.basename w.ext e = none) :
    e ∈ (w.prune fs).2.entries ↔ e ∈ fs.entries := by
  refine ⟨(prune_entries w fs e).1, fun h => (prune_entries w fs e).2 h ?_⟩
  intro n hn heq
  have hr := doomed_range w fs.entries n hn
  rw [heq, backupStamp_backupName _ _ n hr.1 hr.2] at hs
  simp at hs

/-! ## Method `openFile` -/

theorem openFile_calls (w : RotateWriter) (fs : FS) :
    ∃ new, (w.openFile fs).2.calls = fs.calls ++ new ∧
      ∀ c ∈ new, c = Call.mkdirAll ∨ c = Call.openFile w.Filename := by
  unfold RotateWriter.openFile
  split_ifs
  · have hm := osMkdirAll_calls fs
    rcases hmk : osMkdirAll fs with ⟨err, fs1⟩
    rw [hmk] at hm
    simp only at hm
    cases err with
    | some e => exact ⟨[Call.mkdirAll], hm, by simp⟩
    | none =>
      refine ⟨[Call.mkdirAll, Call.openFile w.Filename], ?_, by simp⟩
      simp only [osOpenFile_calls, hm]
      simp
  · exact ⟨[Call.openFile w.Filename], osOpenFile_calls _ _, by simp⟩

theorem openFile_entries (w : RotateWriter) (fs : FS) :
    (w.openFile fs).2.entries = fs.entries ∨
      (w.openFile fs).2.entries = Base w.Filename :: fs.entries := by
  unfold RotateWriter.openFile
  split_ifs
  · have hm := osMkdirAll_entries fs
    rcases hmk : osMkdirAll fs with ⟨err, fs1⟩
    rw [hmk] at hm
    simp only at hm
    cases err with
    | some e => exact Or.inl hm
    | none =>
      simp only
      rw [← hm]
      exact osOpenFile_entries _ _
  · exact osOpenFile_entries _ _

theorem openFile_ok (w : RotateWriter) (fs : FS) (h : (w.openFile fs).1.2 = none) :
    (∃ i, (w.openFile fs).1.1 =
        some { id := i, name := Base w.Filename, closed := false, written := 0 }) ∧
      Base w.Filename ∈ (w.openFile fs).2.entries := by
  unfold RotateWriter.openFile at h ⊢
  split_ifs at h ⊢
  · rcases hmk : osMkdirAll fs with ⟨err, fs1⟩
    rw [hmk] at h
    cases err with
    | some e => simp at h
    | none =>
      simp only at h ⊢
      exact ⟨⟨_, (osOpenFile_ok _ _ h).1⟩, (osOpenFile_ok _ _ h).2⟩
  · exact ⟨⟨_, (osOpenFile_ok _ _ h).1⟩, (osOpenFile_ok _ _ h).2⟩

/-! ## Facts about the rotation cycle -/

theorem currentLog_ne_backupLog (b x : Str) (t : Int) : b ++ x ≠ backupName b x t := by
  intro h
  unfold backupName at h
  have h' := congrArg List.length h
  simp only [List.length_append, List.length_cons, List.length_nil] at h'
  omega

theorem stamp_eq (w : RotateWriter) (fs : FS) : stamp w fs = (timeNowUnixNano fs).1 := by
  unfold stamp afterClose
  exact timeNow_fst_congr _ _ (osFileClose_clock _ _)

theorem stamp_range (w : RotateWriter) (fs : FS) :
    -2 ^ 63 ≤ stamp w fs ∧ stamp w fs < 2 ^ 63 := timeNow_range _

theorem afterClose_calls (w : RotateWriter) (fs : FS) :
    (afterClose w fs).calls = fs.calls ++ [Call.close (w.file.map File.id)] :=
  osFileClose_calls _ _

theorem afterClose_entries (w : RotateWriter) (fs : FS) :
    (afterClose w fs).entries = fs.entries := osFileClose_entries _ _

theorem renameStep_calls (w : RotateWriter) (fs : FS) :
    (renameStep w fs).2.calls = fs.calls ++ [Call.close (w.file.map File.id),
      Call.rename (w.basename ++ w.ext) (backupName w.basename w.ext (stamp w fs))] := by
  unfold renameStep
  rw [osRename_calls, timeNow_calls, afterClose_calls]
  simp

/-- The directory after a successful rename: the backup has taken the place of the
active file. -/
theorem renameStep_ok (w : RotateWriter) (fs : FS) (h : (renameStep w fs).1 = none) :
    w.basename ++ w.ext ∈ fs.entries ∧
    (renameStep w fs).2.entries = backupName w.basename w.ext (stamp w fs) ::
      fs.entries.filter (fun e => e ≠ w.basename ++ w.ext ∧
        e ≠ backupName w.basename w.ext (stamp w fs)) := by
  unfold renameStep at h ⊢
  have := osRename_ok _ _ _ (currentLog_ne_backupLog w.basename w.ext (stamp w fs)) h
  rw [timeNow_entries, afterClose_entries] at this
  exact this

theorem renameStep_err (w : RotateWriter) (fs : FS) (h : (renameStep w fs).1 ≠ none) :
    (renameStep w fs).2.entries = fs.entries := by
  unfold renameStep at h ⊢
  rw [osRename_entries_err _ _ _ h, timeNow_entries, afterClose_entries]

/-- The calls of a rotation cycle, whatever its outcome: it starts with the `Close`
of the active handle, and every `os.Remove` comes from the pruning block. -/
theorem rotate_calls (w : RotateWriter) (fs : FS) :
    ∃ new, (w.rotate fs).2.2.calls
        = fs.calls ++ Call.close (w.file.map File.id) :: new ∧
      (∀ p, Call.remove p ∈ new →
        (renameStep w fs).1 = none ∧ 0 < w.MaxBackups ∧
        ∃ n ∈ doomed w (renameStep w fs).2.entries, p = backupName w.basename w.ext n) := by
  have hc := afterClose_calls w fs
  have hr := renameStep_calls w fs
  obtain ⟨newp, hp, hp2, _⟩ := prune_calls w (renameStep w fs).2
  obtain ⟨newo, ho, ho2⟩ := openFile_calls w (pruneStep w fs).2
  have hp' : (pruneStep w fs).2.calls = (renameStep w fs).2.calls ++ newp := hp
  have ho' : (openStep w fs).2.calls = (pruneStep w fs).2.calls ++ newo := ho
  have hnoo : ∀ p, Call.remove p ∉ newo := by
    intro p hp
    rcases ho2 _ hp with h | h <;> cases h
  rcases rotate_cases w fs with h | h | h | h | h
  · refine ⟨[], ?_, by simp⟩
    rw [h.2]; exact hc
  · refine ⟨[Call.rename (w.basename ++ w.ext) (backupName w.basename w.ext (stamp w fs))],
      ?_, ?_⟩
    · rw [h.2.2]; simpa using hr
    · intro p hp; simp at hp
  · refine ⟨Call.rename (w.basename ++ w.ext) (backupName w.basename w.ext (stamp w fs))
      :: newp, ?_, ?_⟩
    · rw [h.2.2.2]; simp only [hp', hr]; simp
    · intro p hp
      simp only [List.mem_cons, false_or] at hp
      rcases hp with hp | hp
      · cases hp
      · exact ⟨h.2.1, hp2 p hp⟩
  · refine ⟨Call.rename (w.basename ++ w.ext) (backupName w.basename w.ext (stamp w fs))
      :: (newp ++ newo), ?_, ?_⟩
    · rw [h.2.2.2.2]; simp only [ho', hp', hr]; simp
    · intro p hp
      simp only [List.mem_cons, List.mem_append, false_or] at hp
      rcases hp with hp | hp | hp
      · cases hp
      · exact ⟨h.2.1, hp2 p hp⟩
      · exact absurd hp (hnoo p)
  · refine ⟨Call.rename (w.basename ++ w.ext) (backupName w.basename w.ext (stamp w fs))
      :: (newp ++ newo), ?_, ?_⟩
    · rw [h.2.2.2.2]; simp only [ho', hp', hr]; simp
    · intro p hp
      simp only [List.mem_cons, List.mem_append, false_or] at hp
      rcases hp with hp | hp | hp
      · cases hp
      · exact ⟨h.2.1, hp2 p hp⟩
      · exact absurd hp (hnoo p)

/-- A rotation cycle that completes went through every stage. -/
theorem rotate_ok (w : RotateWriter) (fs : FS) (h : (w.rotate fs).1 = none) :
    (osFileClose w.file fs).1 = none ∧ (renameStep w fs).1 = none ∧
      (pruneStep w fs).1 = none ∧ (openStep w fs).1.2 = none ∧
      w.rotate fs = (none,
        { w with file := (openStep w fs).1.1, currentSize := 0 }, (openStep w fs).2) := by
  rcases rotate_cases w fs with c | c | c | c | c
  · rw [c.2] at h; exact absurd h c.1
  · rw [c.2.2] at h; exact absurd h c.2.1
  · rw [c.2.2.2] at h; exact absurd h c.2.2.1
  · rw [c.2.2.2.2] at h; exact absurd h c.2.2.2.1
  · exact c

/-- A rotation cycle changes no field of the writer but `file` and `currentSize`. -/
theorem rotate_fields (w : RotateWriter) (fs : FS) :
    (w.rotate fs).2.1.Filename = w.Filename ∧ (w.rotate fs).2.1.MaxSize = w.MaxSize ∧
    (w.rotate fs).2.1.MaxBackups = w.MaxBackups ∧
    (w.rotate fs).2.1.AutoDirCreate = w.AutoDirCreate ∧
    (w.rotate fs).2.1.dir = w.dir ∧ (w.rotate fs).2.1.basename = w.basename ∧
    (w.rotate fs).2.1.ext = w.ext := by
  rcases rotate_cases w fs with c | c | c | c | c
  · rw [c.2]; simp
  · rw [c.2.2]; simp
  · rw [c.2.2.2]; simp
  · rw [c.2.2.2.2]; simp
  · rw [c.2.2.2.2]; simp

/-- The entries of the directory after a rotation cycle: nothing appears but the
backup and the active file. -/
theorem rotate_entries_sub (w : RotateWriter) (fs : FS) (e : Str)
    (h : e ∈ (w.rotate fs).2.2.entries) :
    e ∈ fs.entries ∨ e = backupName w.basename w.ext (stamp w fs) ∨ e = Base w.Filename := by
  have hren : e ∈ (renameStep w fs).2.entries →
      e ∈ fs.entries ∨ e = backupName w.basename w.ext (stamp w fs) := by
    intro he
    by_cases hr : (renameStep w fs).1 = none
    · rw [(renameStep_ok w fs hr).2] at he
      rcases List.mem_cons.1 he with h1 | h1
      · exact Or.inr h1
      · exact Or.inl (List.mem_filter.1 h1).1
    · rw [renameStep_err w fs hr] at he
      exact Or.inl he
  have hpr : e ∈ (pruneStep w fs).2.entries → e ∈ (renameStep w fs).2.entries :=
    (prune_entries w (renameStep w fs).2 e).1
  have hop : e ∈ (openStep w fs).2.entries →
      e ∈ (pruneStep w fs).2.entries ∨ e = Base w.Filename := by
    intro he
    rcases openFile_entries w (pruneStep w fs).2 with h1 | h1
    · left; unfold openStep at he; rw [h1] at he; exact he
    · unfold openStep at he; rw [h1] at he
      rcases List.mem_cons.1 he with h2 | h2
      · exact Or.inr h2
      · exact Or.inl h2
  rcases rotate_cases w fs with c | c | c | c | c
  · rw [c.2] at h
    simp only at h
    rw [afterClose_entries] at h
    exact Or.inl h
  · rw [c.2.2] at h
    rcases hren h with h1 | h1
    · exact Or.inl h1
    · exact Or.inr (Or.inl h1)
  · rw [c.2.2.2] at h
    rcases hren (hpr h) with h1 | h1
    · exact Or.inl h1
    · exact Or.inr (Or.inl h1)
  · rw [c.2.2.2.2] at h
    rcases hop h with h0 | h0
    · rcases hren (hpr h0) with h1 | h1
      · exact Or.inl h1
      · exact Or.inr (Or.inl h1)
    · exact Or.inr (Or.inr h0)
  · rw [c.2.2.2.2] at h
    rcases hop h with h0 | h0
    · rcases hren (hpr h0) with h1 | h1
      · exact Or.inl h1
      · exact Or.inr (Or.inl h1)
    · exact Or.inr (Or.inr h0)

theorem prune_keeps (w : RotateWriter) (fs : FS) (e : Str) (he : e ∈ fs.entries)
    (hd : 0 < w.MaxBackups → ∀ n ∈ doomed w fs.entries, e ≠ backupName w.basename w.ext n) :
    e ∈ (w.prune fs).2.entries := by
  by_cases h : 0 < w.MaxBackups
  · exact (prune_entries w fs e).2 he (hd h)
  · rw [prune_off w fs (by omega)]
    exact he

theorem openStep_keeps (w : RotateWriter) (fs : FS) (e : Str)
    (he : e ∈ (pruneStep w fs).2.entries) : e ∈ (openStep w fs).2.entries := by
  unfold openStep
  rcases openFile_entries w (pruneStep w fs).2 with h | h <;> rw [h]
  · exact he
  · exact List.mem_cons_of_mem _ he

/-- What is in the directory after the rename and is not named by the deletion
loop is still there at the end of the cycle. -/
theorem after_rename_keeps (w : RotateWriter) (fs : FS) (e : Str)
    (hc : (osFileClose w.file fs).1 = none) (hr : (renameStep w fs).1 = none)
    (he : e ∈ (renameStep w fs).2.entries)
    (hd : 0 < w.MaxBackups → ∀ n ∈ doomed w (renameStep w fs).2.entries,
      e ≠ backupName w.basename w.ext n) :
    e ∈ (w.rotate fs).2.2.entries := by
  have hp : e ∈ (pruneStep w fs).2.entries := prune_keeps w _ e he hd
  rcases rotate_cases w fs with c | c | c | c | c
  · exact absurd hc c.1
  · exact absurd hr c.2.1
  · rw [c.2.2.2]; exact hp
  · rw [c.2.2.2.2]; exact openStep_keeps w fs e hp
  · rw [c.2.2.2.2]; exact openStep_keeps w fs e hp

/-- An entry other than the active file, and not named by the deletion loop,
outlives a rotation cycle, whatever the outcome of the cycle. -/
theorem rotate_keeps (w : RotateWriter) (fs : FS) (e : Str) (he : e ∈ fs.entries)
    (hne : e ≠ w.basename ++ w.ext)
    (hd : 0 < w.MaxBackups → ∀ n ∈ doomed w (renameStep w fs).2.entries,
      e ≠ backupName w.basename w.ext n) :
    e ∈ (w.rotate fs).2.2.entries := by
  have hren : e ∈ (renameStep w fs).2.entries := by
    by_cases hr : (renameStep w fs).1 = none
    · rw [(renameStep_ok w fs hr).2]
      by_cases hb : e = backupName w.basename w.ext (stamp w fs)
      · rw [hb]; exact List.mem_cons_self _ _
      · exact List.mem_cons_of_mem _ (List.mem_filter.2 ⟨he, by simp [hne, hb]⟩)
    · rw [renameStep_err w fs hr]; exact he
  have hp : e ∈ (pruneStep w fs).2.entries := prune_keeps w _ e hren hd
  rcases rotate_cases w fs with c | c | c | c | c
  · rw [c.2]; simp only; rw [afterClose_entries]; exact he
  · rw [c.2.2]; exact hren
  · rw [c.2.2.2]; exact hp
  · rw [c.2.2.2.2]; exact openStep_keeps w fs e hp
  · rw [c.2.2.2.2]; exact openStep_keeps w fs e hp

theorem orderedInsert_of_all_lt (t : Int) (l : List Int) (h : ∀ x ∈ l, x < t) :
    List.orderedInsert (· ≤ ·) t l = l ++ [t] := by
  induction l with
  | nil => rfl
  | cons b l ih =>
    have hb : ¬ t ≤ b := by
      have := h b (List.mem_cons_self _ _)
      omega
    rw [List.orderedInsert, if_neg hb, ih (fun x hx => h x (List.mem_cons_of_mem _ hx))]
    rfl

/-- When the newest backup carries the largest integer, the integers to delete
are all smaller, provided at least one backup is kept. -/
theorem doomed_lt (w : RotateWriter) (t : Int) (rest : List Str) (hmb : 1 ≤ w.MaxBackups)
    (ht : -2 ^ 63 ≤ t ∧ t < 2 ^ 63)
    (hrest : ∀ e ∈ rest, ∀ n, backupStamp w.basename w.ext e = some n → n < t)
    (n : Int) (hn : n ∈ doomed w (backupName w.basename w.ext t :: rest)) : n < t := by
  have hall : ∀ x ∈ slicesSort (discover w.basename w.ext rest), x < t := by
    intro x hx
    have hx' := (slicesSort_mem _ _).1 hx
    unfold discover at hx'
    obtain ⟨e, he, hs⟩ := List.mem_filterMap.1 hx'
    exact hrest e he x hs
  have hd : discover w.basename w.ext (backupName w.basename w.ext t :: rest)
      = t :: discover w.basename w.ext rest := by
    rw [discover_cons, backupStamp_backupName _ _ t ht.1 ht.2]
  have hsort : slicesSort (t :: discover w.basename w.ext rest)
      = slicesSort (discover w.basename w.ext rest) ++ [t] := by
    unfold slicesSort
    rw [List.insertionSort]
    exact orderedInsert_of_all_lt t _ hall
  unfold doomed at hn
  rw [hd, hsort] at hn
  have hk : (((slicesSort (discover w.basename w.ext rest) ++ [t]).length : Int)
      - w.MaxBackups).toNat ≤ (slicesSort (discover w.basename w.ext rest)).length := by
    simp only [List.length_append, List.length_singleton]
    omega
  rw [List.take_append_of_le_length hk] at hn
  exact hall n (List.mem_of_mem_take hn)

/-! ## The properties of the writer -/

/-- C7. The name of a backup, `basename-t` followed by `ext` for an `int64` stamp
`t`, passes the discovery loop of `rotate`: it has the prefix `basename-` and the
suffix `ext`, its middle part parses to exactly `t`, and formatting the parsed
value again gives the same name. -/
theorem backup_name_round_trip (b x : Str) (t : Int) (h1 : -2 ^ 63 ≤ t) (h2 : t < 2 ^ 63) :
    HasPrefix (backupName b x t) (b ++ ['-']) = true ∧
    HasSuffix (backupName b x t) x = true ∧
    ParseInt (TrimSuffix (TrimPrefix (backupName b x t) (b ++ ['-'])) x) = (t, none) ∧
    backupStamp b x (backupName b x t) = some t ∧
    (∀ n, backupStamp b x (backupName b x t) = some n →
      backupName b x n = backupName b x t) := by
  have e1 : backupName b x t = (b ++ ['-']) ++ (FormatInt t ++ x) := by
    simp [backupName, List.append_assoc]
  have e2 : backupName b x t = (b ++ ['-'] ++ FormatInt t) ++ x := rfl
  refine ⟨?_, ?_, ?_, backupStamp_backupName b x t h1 h2, ?_⟩
  · rw [e1]; exact HasPrefix_append _ _
  · rw [e2]; exact HasSuffix_append _ _
  · rw [e1, TrimPrefix_append, TrimSuffix_append]
    exact ParseInt_FormatInt t h1 h2
  · intro n hn
    rw [backupStamp_backupName b x t h1 h2] at hn
    rw [← Option.some.inj hn]

/-- Witness of C7: the name `app-1700000000123456789.log` of a backup of `app.log`. -/
theorem backup_name_round_trip_witness :
    (-2 ^ 63 ≤ (1700000000123456789 : Int) ∧ (1700000000123456789 : Int) < 2 ^ 63) ∧
    backupName "app".toList ".log".toList 1700000000123456789
      = "app-1700000000123456789.log".toList ∧
    backupStamp "app".toList ".log".toList
      (backupName "app".toList ".log".toList 1700000000123456789)
      = some 1700000000123456789 :=
  ⟨by decide, by decide,
    (backup_name_round_trip "app".toList ".log".toList 1700000000123456789
      (by decide) (by decide)).2.2.2.1⟩

theorem backupCount_cons_none (b x e : Str) (l : List Str) (h : backupStamp b x e = none) :
    backupCount b x (e :: l) = backupCount b x l := by
  unfold backupCount
  rw [discover_cons, h]

theorem rotate_count (w : RotateWriter) (fs : FS) (hmb : 0 < w.MaxBackups)
    (hnd : NamesDerived w) (hok : (w.rotate fs).1 = none) :
    (backupCount w.basename w.ext (w.rotate fs).2.2.entries : Int) ≤ w.MaxBackups := by
  obtain ⟨_, _, hp, _, heq⟩ := rotate_ok w fs hok
  have hc := prune_count w (renameStep w fs).2 hmb hp
  rw [heq]
  simp only
  unfold openStep
  rcases openFile_entries w (pruneStep w fs).2 with h | h <;> rw [h]
  · exact hc
  · rw [backupCount_cons_none _ _ _ _ (backupStamp_active w hnd)]
    exact hc

theorem rotateN_count (k : Nat) (w : RotateWriter) (fs : FS) (hmb : 0 < w.MaxBackups)
    (hnd : NamesDerived w) (hk : 0 < k) (hok : (rotateN k w fs).1 = none) :
    (backupCount w.basename w.ext (rotateN k w fs).2.2.entries : Int) ≤ w.MaxBackups := by
  induction k generalizing w fs with
  | zero => omega
  | succ k ih =>
    have hf := rotate_fields w fs
    have hcount := rotate_count w fs hmb hnd
    unfold rotateN at hok ⊢
    rcases hr : w.rotate fs with ⟨err, w1, fs1⟩
    rw [hr] at hok hf hcount
    simp only at hf hcount
    cases err with
    | some e => simp at hok
    | none =>
      simp only at hok ⊢
      cases k with
      | zero =>
        unfold rotateN
        exact hcount rfl
      | succ j =>
        have hnd1 : NamesDerived w1 := by
          unfold NamesDerived at hnd ⊢
          rw [hf.1, hf.2.2.2.2.2.1, hf.2.2.2.2.2.2]
          exact hnd
        have := ih w1 fs1 (by rw [hf.2.2.1]; exact hmb) hnd1 (by omega) hok
        rw [hf.2.2.1, hf.2.2.2.2.2.1, hf.2.2.2.2.2.2] at this
        exact this

/-- C2. For a writer made by `New` with `MaxBackups > 0` and any directory
content, after a rotation cycle that completes without error the directory holds
at most `MaxBackups` entries that the discovery loop recognises as backups; the
same holds after any number of successive cycles that all complete, four cycles
with `MaxBackups = 2` among them. -/
theorem rotate_backup_bound (w : RotateWriter) (fs : FS) (hmb : 0 < w.MaxBackups)
    (hnd : NamesDerived w) :
    ((w.rotate fs).1 = none →
      (backupCount w.basename w.ext (w.rotate fs).2.2.entries : Int) ≤ w.MaxBackups) ∧
    (∀ k, 0 < k → (rotateN k w fs).1 = none →
      (backupCount w.basename w.ext (rotateN k w fs).2.2.entries : Int) ≤ w.MaxBackups) :=
  ⟨rotate_count w fs hmb hnd, fun k hk hok => rotateN_count k w fs hmb hnd hk hok⟩

/-- Witness of C2: four successive cycles of the test writer all complete and leave
at most two backups. -/
theorem rotate_backup_bound_witness :
    0 < testWriter.MaxBackups ∧ NamesDerived testWriter ∧
    (rotateN 4 testWriter testFS).1 = none ∧
    (backupCount testWriter.basename testWriter.ext
      (rotateN 4 testWriter testFS).2.2.entries : Int) ≤ testWriter.MaxBackups :=
  ⟨by decide, by decide, by decide,
    (rotate_backup_bound testWriter testFS (by decide) (by decide)).2 4 (by decide) (by decide)⟩

/-- C10. With `MaxBackups >= 1`, when the stamp sampled by a rotation cycle is
larger than the integer of every entry of the directory that the discovery loop
recognises, no `os.Remove` of that cycle names the backup the cycle has just
made, and the backup is in the directory when the cycle completes. -/
theorem newest_backup_survives (w : RotateWriter) (fs : FS) (hmb : 1 ≤ w.MaxBackups)
    (hnew : ∀ n ∈ discover w.basename w.ext fs.entries, n < (timeNowUnixNano fs).1) :
    (∀ p, Call.remove p ∈ callsSince fs (w.rotate fs).2.2 →
      p ≠ backupName w.basename w.ext (timeNowUnixNano fs).1) ∧
    ((w.rotate fs).1 = none →
      backupName w.basename w.ext (timeNowUnixNano fs).1 ∈ (w.rotate fs).2.2.entries) := by
  rw [← stamp_eq w fs] at hnew ⊢
  have ht := stamp_range w fs
  have hdoomed : (renameStep w fs).1 = none →
      ∀ n ∈ doomed w (renameStep w fs).2.entries,
        backupName w.basename w.ext (stamp w fs) ≠ backupName w.basename w.ext n := by
    intro hr n hn heq
    have hnr := doomed_range w _ n hn
    rw [(renameStep_ok w fs hr).2] at hn
    have hlt := doomed_lt w (stamp w fs) _ hmb ht (fun e he m hm =>
      hnew m (List.mem_filterMap.2 ⟨e, (List.mem_filter.1 he).1, hm⟩)) n hn
    have := backupName_inj _ _ _ _ ht hnr heq
    omega
  constructor
  · intro p hp heq
    obtain ⟨new, hcalls, hrem⟩ := rotate_calls w fs
    rw [callsSince_of_append _ _ _ hcalls] at hp
    rcases List.mem_cons.1 hp with h | h
    · cases h
    · obtain ⟨hr, _, n, hn, hpn⟩ := hrem p h
      exact hdoomed hr n hn (by rw [← hpn, heq])
  · intro hok
    obtain ⟨hc, hr, _, _, _⟩ := rotate_ok w fs hok
    refine after_rename_keeps w fs _ hc hr ?_ (fun _ => hdoomed hr)
    rw [(renameStep_ok w fs hr).2]
    exact List.mem_cons_self _ _

/-- Witness of C10: the cycle removes the oldest backup and keeps the new one. -/
theorem newest_backup_survives_witness :
    (1 ≤ testWriter.MaxBackups) ∧
    (∀ n ∈ discover testWriter.basename testWriter.ext fullFS.entries,
      n < (timeNowUnixNano fullFS).1) ∧
    callsSince fullFS (testWriter.rotate fullFS).2.2 =
      [Call.close (some 0), Call.rename "test.log".toList "test-101.log".toList,
        Call.readDir, Call.remove "test-98.log".toList, Call.mkdirAll,
        Call.openFile "logs/test.log".toList] ∧
    (testWriter.rotate fullFS).1 = none ∧
    backupName testWriter.basename testWriter.ext (timeNowUnixNano fullFS).1
      ∈ (testWriter.rotate fullFS).2.2.entries :=
  ⟨by decide, by decide, by decide, by decide,
    (newest_backup_survives testWriter fullFS (by decide) (by decide)).2 (by decide)⟩

theorem rotate_calls_unlimited (w : RotateWriter) (fs : FS) (h0 : w.MaxBackups = 0) :
    ∃ new, (w.rotate fs).2.2.calls = fs.calls ++ new ∧ ∀ p, Call.remove p ∉ new := by
  obtain ⟨new, hc, hrem⟩ := rotate_calls w fs
  refine ⟨Call.close (w.file.map File.id) :: new, hc, ?_⟩
  intro p hp
  rcases List.mem_cons.1 hp with h | h
  · cases h
  · have := (hrem p h).2.1
    omega

theorem rotateN_calls_unlimited (k : Nat) (w : RotateWriter) (fs : FS)
    (h0 : w.MaxBackups = 0) :
    ∃ new, (rotateN k w fs).2.2.calls = fs.calls ++ new ∧ ∀ p, Call.remove p ∉ new := by
  induction k generalizing w fs with
  | zero => exact ⟨[], by simp [rotateN], by simp⟩
  | succ k ih =>
    obtain ⟨new1, hc1, hn1⟩ := rotate_calls_unlimited w fs h0
    have hf := rotate_fields w fs
    unfold rotateN
    rcases hr : w.rotate fs with ⟨err, w1, fs1⟩
    rw [hr] at hc1 hf
    simp only at hc1 hf
    cases err with
    | some e => exact ⟨new1, hc1, hn1⟩
    | none =>
      simp only
      obtain ⟨new2, hc2, hn2⟩ := ih w1 fs1 (by rw [hf.2.2.1]; exact h0)
      refine ⟨new1 ++ new2, ?_, ?_⟩
      · rw [hc2, hc1, List.append_assoc]
      · intro p hp
        rcases List.mem_append.1 hp with h | h
        · exact hn1 p h
        · exact hn2 p h

theorem rotateN_keeps_unlimited (k : Nat) (w : RotateWriter) (fs : FS)
    (h0 : w.MaxBackups = 0) (e : Str) (he : e ∈ fs.entries) (hne : e ≠ w.basename ++ w.ext) :
    e ∈ (rotateN k w fs).2.2.entries := by
  induction k generalizing w fs with
  | zero => exact he
  | succ k ih =>
    have hk := rotate_keeps w fs e he hne (fun h => by omega)
    have hf := rotate_fields w fs
    unfold rotateN
    rcases hr : w.rotate fs with ⟨err, w1, fs1⟩
    rw [hr] at hk hf
    simp only at hk hf
    cases err with
    | some _ => exact hk
    | none =>
      simp only
      exact ih w1 fs1 (by rw [hf.2.2.1]; exact h0) hk
        (by rw [hf.2.2.2.2.2.1, hf.2.2.2.2.2.2]; exact hne)

theorem rotate_entries_unlimited (w : RotateWriter) (fs : FS) (h0 : w.MaxBackups = 0)
    (hok : (w.rotate fs).1 = none) (e : Str) :
    e ∈ (w.rotate fs).2.2.entries ↔
      (e = Base w.Filename ∨ e = backupName w.basename w.ext (stamp w fs) ∨
        (e ∈ fs.entries ∧ e ≠ w.basename ++ w.ext)) := by
  obtain ⟨hc, hr, _, ho, heq⟩ := rotate_ok w fs hok
  have hp : pruneStep w fs = (none, (renameStep w fs).2) := prune_off w _ (by omega)
  have hren := (renameStep_ok w fs hr).2
  constructor
  · intro he
    rw [heq] at he
    simp only at he
    unfold openStep at he
    rcases openFile_entries w (pruneStep w fs).2 with h | h <;> rw [h, hp] at he
    · simp only at he
      rw [hren] at he
      rcases List.mem_cons.1 he with h1 | h1
      · exact Or.inr (Or.inl h1)
      · have := List.mem_filter.1 h1
        exact Or.inr (Or.inr ⟨this.1, by simpa using (of_decide_eq_true this.2).1⟩)
    · simp only at he
      rcases List.mem_cons.1 he with h0 | he
      · exact Or.inl h0
      · rw [hren] at he
        rcases List.mem_cons.1 he with h1 | h1
        · exact Or.inr (Or.inl h1)
        · have := List.mem_filter.1 h1
          exact Or.inr (Or.inr ⟨this.1, by simpa using (of_decide_eq_true this.2).1⟩)
  · rintro (h | h | ⟨h1, h2⟩)
    · rw [heq, h]
      exact (openFile_ok w _ ho).2
    · rw [h]
      refine after_rename_keeps w fs _ hc hr ?_ (fun h => by omega)
      rw [hren]
      exact List.mem_cons_self _ _
    · exact rotate_keeps w fs e h1 h2 (fun h => by omega)

/-- C9. With `MaxBackups = 0` nothing is pruned: through any number of successive
rotation cycles, whatever the directory holds, no `os.Remove` is called and every
entry other than the active file stays in the directory; a cycle that completes
changes the directory by exactly the rename of the active file to its backup name
and the creation of the active file; and the backup made by a cycle is still in
the directory after any number of further cycles. -/
theorem unlimited_backups_never_pruned (w : RotateWriter) (fs : FS) (h0 : w.MaxBackups = 0) :
    (∀ k p, Call.remove p ∉ callsSince fs (rotateN k w fs).2.2) ∧
    (∀ k, ∀ e ∈ fs.entries, e ≠ w.basename ++ w.ext → e ∈ (rotateN k w fs).2.2.entries) ∧
    ((w.rotate fs).1 = none → ∀ e, e ∈ (w.rotate fs).2.2.entries ↔
      (e = Base w.Filename ∨ e = backupName w.basename w.ext (timeNowUnixNano fs).1 ∨
        (e ∈ fs.entries ∧ e ≠ w.basename ++ w.ext))) ∧
    ((w.rotate fs).1 = none → ∀ k,
      backupName w.basename w.ext (timeNowUnixNano fs).1
        ∈ (rotateN (k + 1) w fs).2.2.entries) := by
  rw [← stamp_eq w fs]
  refine ⟨?_, ?_, ?_, ?_⟩
  · intro k p
    obtain ⟨new, hc, hn⟩ := rotateN_calls_unlimited k w fs h0
    rw [callsSince_of_append _ _ _ hc]
    exact hn p
  · intro k e he hne
    exact rotateN_keeps_unlimited k w fs h0 e he hne
  · intro hok e
    exact rotate_entries_unlimited w fs h0 hok e
  · intro hok k
    have hin := (rotate_entries_unlimited w fs h0 hok
      (backupName w.basename w.ext (stamp w fs))).2 (Or.inr (Or.inl rfl))
    have hf := rotate_fields w fs
    unfold rotateN
    rcases hr : w.rotate fs with ⟨err, w1, fs1⟩
    rw [hr] at hok hin hf
    simp only at hok hin hf
    subst hok
    simp only
    refine rotateN_keeps_unlimited k w1 fs1 (by rw [hf.2.2.1]; exact h0) _ hin ?_
    rw [hf.2.2.2.2.2.1, hf.2.2.2.2.2.2]
    exact (currentLog_ne_backupLog _ _ _).symm

/-- Witness of C9: four cycles of the unlimited writer keep all four backups; the
backup of the first cycle is still there after the three that follow. -/
theorem unlimited_backups_never_pruned_witness :
    unlimitedWriter.MaxBackups = 0 ∧
    (unlimitedWriter.rotate testFS).1 = none ∧
    (rotateN 4 unlimitedWriter testFS).2.2.entries =
      ["test.log".toList, "test-104.log".toList, "test-103.log".toList,
        "test-102.log".toList, "test-101.log".toList] ∧
    backupName unlimitedWriter.basename unlimitedWriter.ext (timeNowUnixNano testFS).1
      ∈ (rotateN (3 + 1) unlimitedWriter testFS).2.2.entries :=
  ⟨by decide, by decide, by decide,
    (unlimited_backups_never_pruned unlimitedWriter testFS (by decide)).2.2.2 (by decide) 3⟩

theorem discover_filter (b x : Str) (l : List Str) :
    discover b x (l.filter (recognised b x)) = discover b x l := by
  induction l with
  | nil => rfl
  | cons e es ih =>
    rw [List.filter_cons]
    cases h : backupStamp b x e with
    | none =>
      have : recognised b x e = false := by simp [recognised, h]
      rw [this, discover_cons, h]
      simpa using ih
    | some n =>
      have : recognised b x e = true := by simp [recognised, h]
      rw [this, if_pos rfl, discover_cons, discover_cons, h]
      simp only [ih]

theorem discover_same (b x : Str) (l l' : List Str)
    (h : l'.filter (recognised b x) = l.filter (recognised b x)) :
    discover b x l' = discover b x l := by
  rw [← discover_filter b x l', ← discover_filter b x l, h]

theorem mem_same (b x : Str) (l l' : List Str) (path : Str)
    (h : l'.filter (recognised b x) = l.filter (recognised b x))
    (hp : recognised b x path = true) : path ∈ l' ↔ path ∈ l := by
  have h1 : path ∈ l' ↔ path ∈ l'.filter (recognised b x) := by
    simp [List.mem_filter, hp]
  have h2 : path ∈ l ↔ path ∈ l.filter (recognised b x) := by
    simp [List.mem_filter, hp]
  rw [h1, h2, h]

theorem filter_same (b x : Str) (l l' : List Str) (path : Str)
    (h : l'.filter (recognised b x) = l.filter (recognised b x)) :
    (l'.filter (· ≠ path)).filter (recognised b x)
      = (l.filter (· ≠ path)).filter (recognised b x) := by
  have comm : ∀ m : List Str, (m.filter (· ≠ path)).filter (recognised b x)
      = (m.filter (recognised b x)).filter (· ≠ path) := by
    intro m
    rw [List.filter_filter, List.filter_filter]
    congr 1
    funext a
    exact Bool.and_comm _ _
  rw [comm, comm, h]

theorem osRemove_same (b x : Str) (fs fs' : FS) (path : Str) (h : SameBackups b x fs fs')
    (hp : recognised b x path = true) :
    (osRemove path fs').1 = (osRemove path fs).1 ∧
      SameBackups b x (osRemove path fs).2 (osRemove path fs').2 := by
  obtain ⟨entries, faults, clock, nextId, calls⟩ := fs
  obtain ⟨entries', faults', clock', nextId', calls'⟩ := fs'
  obtain ⟨h1, h2, h3, h4, h5⟩ := h
  simp only at h1 h2 h3 h4 h5
  subst h1 h2 h3 h4
  have hm := mem_same b x entries entries' path h5 hp
  have hf := filter_same b x entries entries' path h5
  unfold osRemove FS.log FS.nextFault SameBackups
  cases faults' with
  | nil =>
    simp only
    by_cases hin : path ∈ entries
    · rw [if_pos hin, if_pos (hm.2 hin)]
      exact ⟨rfl, rfl, rfl, rfl, rfl, hf⟩
    · rw [if_neg hin, if_neg (fun h => hin (hm.1 h))]
      exact ⟨rfl, rfl, rfl, rfl, rfl, h5⟩
  | cons f r =>
    cases f with
    | some k => exact ⟨rfl, rfl, rfl, rfl, rfl, h5⟩
    | none =>
      simp only
      by_cases hin : path ∈ entries
      · rw [if_pos hin, if_pos (hm.2 hin)]
        exact ⟨rfl, rfl, rfl, rfl, rfl, hf⟩
      · rw [if_neg hin, if_neg (fun h => hin (hm.1 h))]
        exact ⟨rfl, rfl, rfl, rfl, rfl, h5⟩

theorem recognised_backupName (b x : Str) (n : Int) (hn : -2 ^ 63 ≤ n ∧ n < 2 ^ 63) :
    recognised b x (backupName b x n) = true := by
  simp [recognised, backupStamp_backupName b x n hn.1 hn.2]

theorem removeLoop_same (b x : Str) (l : List Int) (fs fs' : FS) (h : SameBackups b x fs fs')
    (hrange : ∀ n ∈ l, -2 ^ 63 ≤ n ∧ n < 2 ^ 63) :
    (removeLoop b x l fs').1 = (removeLoop b x l fs).1 ∧
      SameBackups b x (removeLoop b x l fs).2 (removeLoop b x l fs').2 := by
  induction l generalizing fs fs' with
  | nil => exact ⟨rfl, h⟩
  | cons n rest ih =>
    have hs := osRemove_same b x fs fs' (backupName b x n) h
      (recognised_backupName b x n (hrange n (List.mem_cons_self _ _)))
    unfold removeLoop
    rcases hr : osRemove (backupName b x n) fs with ⟨err, fs1⟩
    rcases hr' : osRemove (backupName b x n) fs' with ⟨err', fs1'⟩
    rw [hr, hr'] at hs
    obtain ⟨he, hsim⟩ := hs
    simp only at he hsim
    subst he
    cases err' with
    | some e => exact ⟨rfl, hsim⟩
    | none => exact ih fs1 fs1' hsim (fun m hm => hrange m (List.mem_cons_of_mem _ hm))

theorem osReadDir_same (b x : Str) (fs fs' : FS) (h : SameBackups b x fs fs') :
    (osReadDir fs').2.1 = (osReadDir fs).2.1 ∧
      SameBackups b x (osReadDir fs).2.2 (osReadDir fs').2.2 := by
  obtain ⟨entries, faults, clock, nextId, calls⟩ := fs
  obtain ⟨entries', faults', clock', nextId', calls'⟩ := fs'
  obtain ⟨h1, h2, h3, h4, h5⟩ := h
  simp only at h1 h2 h3 h4 h5
  subst h1 h2 h3 h4
  unfold osReadDir FS.log FS.nextFault SameBackups
  cases faults' with
  | nil => exact ⟨rfl, rfl, rfl, rfl, rfl, h5⟩
  | cons f r =>
    cases f with
    | some k => exact ⟨rfl, rfl, rfl, rfl, rfl, h5⟩
    | none => exact ⟨rfl, rfl, rfl, rfl, rfl, h5⟩

theorem doomed_same (w : RotateWriter) (l l' : List Str)
    (h : l'.filter (recognised w.basename w.ext) = l.filter (recognised w.basename w.ext)) :
    doomed w l' = doomed w l := by
  unfold doomed
  rw [discover_same _ _ l l' h]

theorem prune_same (w : RotateWriter) (fs fs' : FS) (h : SameBackups w.basename w.ext fs fs') :
    (w.prune fs').1 = (w.prune fs).1 ∧
      SameBackups w.basename w.ext (w.prune fs).2 (w.prune fs').2 := by
  by_cases hmb : 0 < w.MaxBackups
  · obtain ⟨he, hsim⟩ := osReadDir_same w.basename w.ext fs fs' h
    by_cases hr : (osReadDir fs).2.1 = none
    · have hr' : (osReadDir fs').2.1 = none := by rw [he]; exact hr
      rw [prune_on w fs hmb hr, prune_on w fs' hmb hr', discover_same _ _ _ _ h.2.2.2.2,
        doomed_same w _ _ h.2.2.2.2]
      split_ifs
      · exact removeLoop_same _ _ _ _ _ hsim (fun n hn => doomed_range w _ n hn)
      · exact ⟨rfl, hsim⟩
    · have hr' : (osReadDir fs').2.1 ≠ none := by rw [he]; exact hr
      rw [prune_listing_fails w fs hmb hr, prune_listing_fails w fs' hmb hr']
      exact ⟨he, hsim⟩
  · rw [prune_off w fs (by omega), prune_off w fs' (by omega)]
    exact ⟨rfl, h⟩

/-- C8. Entries that the discovery loop does not recognise (no prefix `basename-`,
no suffix `ext`, or a middle part that does not parse as an integer) are neither
counted nor deleted: for two listings that differ only by such entries the count
compared against `MaxBackups`, the outcome of the pruning block and its calls, the
paths given to `os.Remove` among them, are the same; such an entry is in the
directory after the block exactly when it was there before; and no `os.Remove`
names such an entry. -/
theorem unrecognised_entries_ignored (w : RotateWriter) (fs : FS) (entries' : List Str)
    (hsame : entries'.filter (recognised w.basename w.ext)
      = fs.entries.filter (recognised w.basename w.ext)) :
    backupCount w.basename w.ext entries' = backupCount w.basename w.ext fs.entries ∧
    (w.prune { fs with entries := entries' }).1 = (w.prune fs).1 ∧
    (w.prune { fs with entries := entries' }).2.calls = (w.prune fs).2.calls ∧
    (∀ e, backupStamp w.basename w.ext e = none →
      (e ∈ (w.prune fs).2.entries ↔ e ∈ fs.entries)) ∧
    (∀ p, Call.remove p ∈ callsSince fs (w.prune fs).2 →
      backupStamp w.basename w.ext p ≠ none) := by
  have hsim : SameBackups w.basename w.ext fs { fs with entries := entries' } :=
    ⟨rfl, rfl, rfl, rfl, hsame⟩
  obtain ⟨h1, h2⟩ := prune_same w fs _ hsim
  refine ⟨?_, h1, h2.2.1, fun e he => prune_keeps_unrecognised w fs e he, ?_⟩
  · unfold backupCount
    rw [discover_same _ _ _ _ hsame]
  · intro p hp
    obtain ⟨new, hc, hrem, _⟩ := prune_calls w fs
    rw [callsSince_of_append _ _ _ hc] at hp
    obtain ⟨_, n, hn, rfl⟩ := hrem p hp
    have hr := doomed_range w _ n hn
    rw [backupStamp_backupName _ _ n hr.1 hr.2]
    simp

/-- Witness of C8: stray entries added to and removed from the listing. -/
theorem unrecognised_entries_ignored_witness :
    strayEntries.filter (recognised testWriter.basename testWriter.ext)
      = prunableFS.entries.filter (recognised testWriter.basename testWriter.ext) ∧
    (testWriter.prune prunableFS).2.entries
      = ["test-101.log".toList, "test-99.log".toList, "notes.txt".toList] ∧
    (testWriter.prune { prunableFS with entries := strayEntries }).2.entries
      = ["test-abc.log".toList, "test-101.log".toList, "other-5.log".toList,
          "test-.log".toList, "test-99.log".toList, "test-7.txt".toList] ∧
    backupCount testWriter.basename testWriter.ext strayEntries
      = backupCount testWriter.basename testWriter.ext prunableFS.entries ∧
    (testWriter.prune { prunableFS with entries := strayEntries }).2.calls
      = (testWriter.prune prunableFS).2.calls :=
  ⟨by decide, by decide, by decide,
    (unrecognised_entries_ignored testWriter prunableFS strayEntries (by decide)).1,
    (unrecognised_entries_ignored testWriter prunableFS strayEntries (by decide)).2.2.1⟩

/-! ## Identity of the file opened by a cycle -/

theorem osFileClose_nextId (f : Option File) (fs : FS) :
    (osFileClose f fs).2.2.nextId = fs.nextId := by
  have h := nextFault_nextId (fs.log (.close (f.map File.id)))
  unfold osFileClose
  simp only
  split
  · rfl
  · split_ifs
    · rfl
    · exact h

theorem timeNow_nextId (fs : FS) : (timeNowUnixNano fs).2.nextId = fs.nextId := by
  unfold timeNowUnixNano; split <;> rfl

theorem osRename_nextId (a b : Str) (fs : FS) : (osRename a b fs).2.nextId = fs.nextId := by
  have h := nextFault_nextId (fs.log (.rename a b))
  unfold osRename
  simp only
  split
  · rename_i e; rw [e] at h; exact h
  · rename_i e; rw [e] at h
    split_ifs <;> exact h

theorem osReadDir_nextId (fs : FS) : (osReadDir fs).2.2.nextId = fs.nextId := by
  have h := nextFault_nextId (fs.log .readDir)
  unfold osReadDir
  simp only
  split <;> (rename_i e; rw [e] at h; exact h)

theorem osRemove_nextId (path : Str) (fs : FS) : (osRemove path fs).2.nextId = fs.nextId := by
  have h := nextFault_nextId (fs.log (.remove path))
  unfold osRemove
  simp only
  split
  · rename_i e; rw [e] at h; exact h
  · rename_i e; rw [e] at h
    split <;> exact h

theorem osMkdirAll_nextId (fs : FS) : (osMkdirAll fs).2.nextId = fs.nextId := by
  have h := nextFault_nextId (fs.log .mkdirAll)
  unfold osMkdirAll
  simp only
  split <;> (rename_i e; rw [e] at h; exact h)

theorem removeLoop_nextId (b x : Str) (l : List Int) (fs : FS) :
    (removeLoop b x l fs).2.nextId = fs.nextId := by
  induction l generalizing fs with
  | nil => rfl
  | cons n rest ih =>
    have h := osRemove_nextId (backupName b x n) fs
    unfold removeLoop
    rcases hr : osRemove (backupName b x n) fs with ⟨err, fs1⟩
    rw [hr] at h
    cases err with
    | some e => exact h
    | none => simp only; rw [ih fs1]; exact h

theorem prune_nextId (w : RotateWriter) (fs : FS) : (w.prune fs).2.nextId = fs.nextId := by
  by_cases hmb : 0 < w.MaxBackups
  · by_cases hr : (osReadDir fs).2.1 = none
    · rw [prune_on w fs hmb hr]
      split_ifs
      · rw [removeLoop_nextId, osReadDir_nextId]
      · exact osReadDir_nextId fs
    · rw [prune_listing_fails w fs hmb hr]
      exact osReadDir_nextId fs
  · rw [prune_off w fs (by omega)]

theorem openFile_handle (w : RotateWriter) (fs : FS) (h : (w.openFile fs).1.2 = none) :
    (w.openFile fs).1.1 =
      some { id := fs.nextId, name := Base w.Filename, closed := false, written := 0 } := by
  unfold RotateWriter.openFile at h ⊢
  split_ifs at h ⊢
  · have hn := osMkdirAll_nextId fs
    rcases hmk : osMkdirAll fs with ⟨err, fs1⟩
    rw [hmk] at h hn
    cases err with
    | some e => simp at h
    | none =>
      simp only at h hn ⊢
      rw [(osOpenFile_ok _ _ h).1, hn]
  · exact (osOpenFile_ok _ _ h).1

theorem pruneStep_nextId (w : RotateWriter) (fs : FS) :
    (pruneStep w fs).2.nextId = fs.nextId := by
  unfold pruneStep renameStep afterClose
  rw [prune_nextId, osRename_nextId, timeNow_nextId, osFileClose_nextId]

/-- The writer after a rotation cycle that completes. -/
theorem rotate_writer (w : RotateWriter) (fs : FS) (hok : (w.rotate fs).1 = none) :
    (w.rotate fs).2.1 = { w with
      file := some { id := fs.nextId, name := Base w.Filename, closed := false, written := 0 },
      currentSize := 0 } := by
  obtain ⟨_, _, _, ho, heq⟩ := rotate_ok w fs hok
  have hh := openFile_handle w (pruneStep w fs).2 ho
  rw [pruneStep_nextId] at hh
  rw [heq]
  simp only
  unfold openStep
  rw [hh]

/-! ## Method `Write` -/

theorem wrapInt64_mul_1024 (a : Int) : wrapInt64 (wrapInt64 a * 1024) = wrapInt64 (a * 1024) := by
  unfold wrapInt64
  omega

/-- The test of `Write` in exact integers, when neither side overflows. -/
theorem overThreshold_iff (w : RotateWriter) (p : List UInt8)
    (hcs : -2 ^ 63 ≤ w.currentSize) (hlen : (p.length : Int) < 2 ^ 63)
    (hfit : -2 ^ 63 ≤ w.MaxSize * 1024 * 1024 ∧ w.MaxSize * 1024 * 1024 < 2 ^ 63)
    (hsum : w.currentSize + p.length < 2 ^ 63) :
    w.overThreshold p = true ↔ w.currentSize + p.length ≥ w.MaxSize * 1024 * 1024 := by
  unfold RotateWriter.overThreshold wrapInt
  rw [wrapInt64_mul_1024, wrapInt64_of_range (w.MaxSize * 1024 * 1024) hfit.1 hfit.2,
    wrapInt64_of_range (w.MaxSize * 1024 * 1024) hfit.1 hfit.2,
    wrapInt64_of_range (p.length : Int) (by omega) hlen,
    wrapInt64_of_range (w.currentSize + p.length) (by omega) hsum]
  simp

theorem writeFile_calls (w : RotateWriter) (p : List UInt8) (fs : FS) :
    (w.writeFile p fs).2.2.calls = fs.calls ++ [Call.write (w.file.map File.id) p.length] ∧
    (w.writeFile p fs).2.2.entries = fs.entries ∧
    (w.writeFile p fs).2.1.file.map File.id = w.file.map File.id := by
  have hc := nextFault_calls (fs.log (.write (w.file.map File.id) p.length))
  have he := nextFault_entries (fs.log (.write (w.file.map File.id) p.length))
  unfold RotateWriter.writeFile osFileWrite
  cases hf : w.file with
  | none => exact ⟨rfl, rfl, rfl⟩
  | some h =>
    rw [hf] at hc he
    simp only
    by_cases hcl : h.closed = true
    · rw [if_pos hcl]
      exact ⟨rfl, rfl, rfl⟩
    · rw [if_neg hcl]
      rcases hnf : (fs.log (Call.write (Option.map File.id (some h)) p.length)).nextFault
        with ⟨flt, fs1⟩
      rw [hnf] at hc he
      cases flt with
      | none => exact ⟨hc, he, rfl⟩
      | some k => exact ⟨hc, he, rfl⟩

/-- The calls of `Write`: a rotation cycle first, starting with the `Close` of the
active handle, when the test of `Write` holds; the file write alone otherwise. -/
theorem Write_calls (w : RotateWriter) (p : List UInt8) (fs : FS) :
    (w.overThreshold p = true →
      ∃ new, (w.Write p fs).2.2.calls = fs.calls ++ Call.close (w.file.map File.id) :: new) ∧
    (w.overThreshold p = false →
      (w.Write p fs).2.2.calls = fs.calls ++ [Call.write (w.file.map File.id) p.length] ∧
      (w.Write p fs).2.2.entries = fs.entries ∧
      (w.Write p fs).2.1.file.map File.id = w.file.map File.id) := by
  constructor
  · intro h
    obtain ⟨new, hc, _⟩ := rotate_calls w fs
    unfold RotateWriter.Write
    rw [if_pos h]
    rcases hr : w.rotate fs with ⟨err, w1, fs1⟩
    rw [hr] at hc
    simp only at hc
    cases err with
    | some e => exact ⟨new, hc⟩
    | none =>
      simp only
      refine ⟨new ++ [Call.write (w1.file.map File.id) p.length], ?_⟩
      rw [(writeFile_calls w1 p fs1).1, hc]
      simp
  · intro h
    unfold RotateWriter.Write
    rw [if_neg (by simp [h])]
    exact writeFile_calls w p fs

/-- C1, with the bound that the code needs on the left-hand side as well. When
`MaxSize*1024*1024` and `currentSize + len(p)` both fit in a signed 64-bit integer,
`Write(p)` runs a rotation cycle before writing (its first call is the `Close` of
the active handle) if and only if `currentSize + len(p) >= MaxSize*1024*1024`;
strictly below the threshold its only call is the write of the payload on the same
handle, and the directory is unchanged. -/
theorem write_rotates_iff (w : RotateWriter) (p : List UInt8) (fs : FS)
    (hcs : -2 ^ 63 ≤ w.currentSize) (hlen : (p.length : Int) < 2 ^ 63)
    (hfit : -2 ^ 63 ≤ w.MaxSize * 1024 * 1024 ∧ w.MaxSize * 1024 * 1024 < 2 ^ 63)
    (hsum : w.currentSize + p.length < 2 ^ 63) :
    ((callsSince fs (w.Write p fs).2.2).head? = some (Call.close (w.file.map File.id)) ↔
      w.currentSize + p.length ≥ w.MaxSize * 1024 * 1024) ∧
    (w.currentSize + p.length < w.MaxSize * 1024 * 1024 →
      callsSince fs (w.Write p fs).2.2 = [Call.write (w.file.map File.id) p.length] ∧
      (w.Write p fs).2.2.entries = fs.entries ∧
      (w.Write p fs).2.1.file.map File.id = w.file.map File.id) := by
  have hiff := overThreshold_iff w p hcs hlen hfit hsum
  obtain ⟨hyes, hno⟩ := Write_calls w p fs
  constructor
  · constructor
    · intro hhead
      by_contra hlt
      have hf : w.overThreshold p = false := by
        rw [← Bool.not_eq_true]
        exact fun h => hlt (hiff.1 h)
      rw [callsSince_of_append _ _ _ (hno hf).1] at hhead
      simp at hhead
    · intro hge
      obtain ⟨new, hc⟩ := hyes (hiff.2 hge)
      rw [callsSince_of_append _ _ _ hc]
      rfl
  · intro hlt
    have hf : w.overThreshold p = false := by
      rw [← Bool.not_eq_true]
      intro h
      have := hiff.1 h
      omega
    obtain ⟨h1, h2, h3⟩ := hno hf
    exact ⟨callsSince_of_append _ _ _ h1, h2, h3⟩

/-- Witness of C1: the ten bytes that reach 1 MiB trigger a rotation cycle. -/
theorem write_rotates_iff_witness :
    (-2 ^ 63 ≤ nearlyFull.currentSize) ∧ ((tenBytes.length : Int) < 2 ^ 63) ∧
    (-2 ^ 63 ≤ nearlyFull.MaxSize * 1024 * 1024 ∧ nearlyFull.MaxSize * 1024 * 1024 < 2 ^ 63) ∧
    (nearlyFull.currentSize + tenBytes.length < 2 ^ 63) ∧
    (nearlyFull.currentSize + tenBytes.length ≥ nearlyFull.MaxSize * 1024 * 1024) ∧
    ((callsSince testFS (nearlyFull.Write tenBytes testFS).2.2).head?
        = some (Call.close (nearlyFull.file.map File.id)) ↔
      nearlyFull.currentSize + tenBytes.length ≥ nearlyFull.MaxSize * 1024 * 1024) :=
  ⟨by decide, by decide, by decide, by decide, by decide,
    (write_rotates_iff nearlyFull tenBytes testFS (by decide) (by decide) (by decide)
      (by decide)).1⟩

/-- Counterexample to C1 as stated: `MaxSize*1024*1024` fits in 64 bits and
`currentSize + len(p)` is above the threshold, yet the sum wraps around in the
test of `Write` and no rotation cycle runs: the only call is the file write. -/
theorem write_rotates_iff_overflow :
    (-2 ^ 63 ≤ hugeWriter.MaxSize * 1024 * 1024 ∧ hugeWriter.MaxSize * 1024 * 1024 < 2 ^ 63) ∧
    callsSince testFS (hugeWriter.Write [0] testFS).2.2 = [Call.write (some 0) 1] ∧
    ¬ ((callsSince testFS (hugeWriter.Write [0] testFS).2.2).head?
        = some (Call.close (hugeWriter.file.map File.id)) ↔
      hugeWriter.currentSize + ([0] : List UInt8).length
        ≥ hugeWriter.MaxSize * 1024 * 1024) := by
  decide

theorem writeFile_ok (w : RotateWriter) (p : List UInt8) (fs : FS)
    (h : (w.writeFile p fs).1.2 = none) :
    (w.writeFile p fs).1.1 = p.length ∧
    (w.writeFile p fs).2.1.currentSize = wrapInt64 (w.currentSize + wrapInt64 (p.length : Int)) ∧
    ∃ f, w.file = some f ∧ f.closed = false ∧
      (w.writeFile p fs).2.1.file = some { f with written := f.written + p.length } := by
  unfold RotateWriter.writeFile osFileWrite at h ⊢
  cases hf : w.file with
  | none => rw [hf] at h; simp at h
  | some f =>
    rw [hf] at h
    simp only at h ⊢
    by_cases hcl : f.closed = true
    · rw [if_pos hcl] at h; simp at h
    · rw [if_neg hcl] at h ⊢
      rcases hnf : (fs.log (Call.write (Option.map File.id (some f)) p.length)).nextFault
        with ⟨flt, fs1⟩
      rw [hnf] at h
      cases flt with
      | none => exact ⟨rfl, rfl, f, rfl, by simpa using hcl, rfl⟩
      | some k => simp at h

/-- A failing file write leaves `currentSize` as it was, whatever the number of
bytes it reports. -/
theorem writeFile_err (w : RotateWriter) (p : List UInt8) (fs : FS)
    (h : (w.writeFile p fs).1.2 ≠ none) :
    (w.writeFile p fs).2.1.currentSize = w.currentSize := by
  unfold RotateWriter.writeFile at h ⊢
  rcases hw : osFileWrite w.file p fs with ⟨⟨n, err⟩, f, fs1⟩
  rw [hw] at h
  cases err with
  | none => simp at h
  | some e => rfl

/-- The writer after a rotation cycle that completes without error: `currentSize`
is 0, the active handle is a file just opened at the original path (nothing
written through it yet) and that path is in the directory. A `Write` that
triggered the cycle and whose file write then reported no error leaves
`currentSize` equal to the number of bytes written, whatever `currentSize` was
before the call. -/
theorem rotation_resets_size (w : RotateWriter) (fs : FS) (hok : (w.rotate fs).1 = none) :
    (w.rotate fs).2.1.currentSize = 0 ∧
    (w.rotate fs).2.1.file =
      some { id := fs.nextId, name := Base w.Filename, closed := false, written := 0 } ∧
    Base w.Filename ∈ (w.rotate fs).2.2.entries ∧
    (∀ p : List UInt8, (p.length : Int) < 2 ^ 63 → w.overThreshold p = true →
      (w.Write p fs).1.2 = none →
      (w.Write p fs).2.1.currentSize = ((w.Write p fs).1.1 : Int) ∧
      (w.Write p fs).1.1 = p.length ∧
      (w.Write p fs).2.1.file = some
        { id := fs.nextId, name := Base w.Filename, closed := false, written := p.length }) := by
  have hw := rotate_writer w fs hok
  obtain ⟨_, _, _, ho, heq⟩ := rotate_ok w fs hok
  refine ⟨by rw [hw], by rw [hw], ?_, ?_⟩
  · rw [heq]
    exact (openFile_ok w _ ho).2
  · intro p hlen hover hwr
    unfold RotateWriter.Write at hwr ⊢
    rw [if_pos hover] at hwr ⊢
    rcases hr : w.rotate fs with ⟨err, w1, fs1⟩
    rw [hr] at hok hw hwr
    simp only at hok hw
    subst hok
    simp only at hwr ⊢
    obtain ⟨h1, h2, f, hf, _, h3⟩ := writeFile_ok w1 p fs1 hwr
    rw [hw] at hf
    simp only [Option.some.injEq] at hf
    subst hf
    refine ⟨?_, h1, ?_⟩
    · rw [h2, h1, hw]
      simp only
      rw [wrapInt64_of_range (p.length : Int) (by omega) hlen, zero_add,
        wrapInt64_of_range (p.length : Int) (by omega) hlen]
    · rw [h3]
      simp

/-- The write that fills the test file rotates it and leaves ten bytes accounted
for. -/
theorem rotation_resets_size_witness :
    (nearlyFull.rotate testFS).1 = none ∧
    (nearlyFull.Write tenBytes testFS).1 = (10, none) ∧
    (nearlyFull.Write tenBytes testFS).2.1.currentSize = 10 ∧
    (nearlyFull.rotate testFS).2.1.currentSize = 0 :=
  ⟨by decide, by decide, by decide,
    (rotation_resets_size nearlyFull testFS (by decide)).1⟩

/-- C4 at a failing input. The file write transfers 4 of 10 bytes and reports an
error: `Write` returns 4 with the error, 4 bytes have gone through the active
handle, and `currentSize` is still 0, not 4. -/
theorem partial_write_not_counted :
    (testWriter.Write tenBytes shortWriteFS).1 = (4, some Err.fault) ∧
    (testWriter.Write tenBytes shortWriteFS).2.1.file.map File.written = some 4 ∧
    (testWriter.Write tenBytes shortWriteFS).2.1.currentSize = 0 ∧
    (testWriter.Write tenBytes shortWriteFS).2.1.currentSize ≠ testWriter.currentSize + 4 := by
  decide

/-- C5 at a failing input. The write of ten bytes into a file 10 bytes short of
1 MiB triggers a rotation cycle, which completes without error; the file write
that follows transfers 4 bytes through the new handle and reports an error:
`Write` returns 4 with the error and `currentSize` is 0, not 4. -/
theorem partial_write_after_rotation :
    nearlyFull.overThreshold tenBytes = true ∧
    (nearlyFull.rotate shortWriteAfterCycleFS).1 = none ∧
    (nearlyFull.rotate shortWriteAfterCycleFS).2.1.currentSize = 0 ∧
    (nearlyFull.Write tenBytes shortWriteAfterCycleFS).1 = (4, some Err.fault) ∧
    (nearlyFull.Write tenBytes shortWriteAfterCycleFS).2.1.file =
      some { id := 1, name := "test.log".toList, closed := false, written := 4 } ∧
    (nearlyFull.Write tenBytes shortWriteAfterCycleFS).2.1.currentSize = 0 ∧
    (nearlyFull.Write tenBytes shortWriteAfterCycleFS).2.1.currentSize ≠ 4 := by
  decide

/-- Counterexample to C6 as stated: after a successful `Close`, a second `Close`
calls `Close` on the handle again and returns its error. -/
theorem second_close_fails :
    (testWriter.Close testFS).1 = none ∧
    ((testWriter.Close testFS).2.1.Close (testWriter.Close testFS).2.2).1
      = some Err.ErrClosed ∧
    callsSince (testWriter.Close testFS).2.2
      ((testWriter.Close testFS).2.1.Close (testWriter.Close testFS).2.2).2.2
      = [Call.close (some 0)] := by
  decide

/-- C6, as the code has it. `Close` on a writer with no file handle returns no
error and does nothing. `Close` does not forget the handle: on a writer whose
handle is already closed it calls `Close` on that handle again, returns its error
`ErrClosed` and leaves the writer as it was; so a second `Close` after a successful
`Close` returns an error. -/
theorem close_behaviour (w : RotateWriter) (fs : FS) :
    (w.file = none → w.Close fs = (none, w, fs)) ∧
    (∀ f, w.file = some f → f.closed = true →
      w.Close fs = (some Err.ErrClosed, w, fs.log (Call.close (some f.id)))) ∧
    ((w.Close fs).1 = none → w.file ≠ none →
      ((w.Close fs).2.1.Close (w.Close fs).2.2).1 = some Err.ErrClosed ∧
      ((w.Close fs).2.1.Close (w.Close fs).2.2).2.1 = (w.Close fs).2.1) := by
  refine ⟨?_, ?_, ?_⟩
  · intro h
    unfold RotateWriter.Close
    rw [h]
  · intro f hf hcl
    unfold RotateWriter.Close osFileClose
    rw [hf]
    simp only [hcl, if_true, Option.map_some']
    rw [← hf]
  · intro hok hne
    unfold RotateWriter.Close osFileClose at hok ⊢
    cases hf : w.file with
    | none => exact absurd hf hne
    | some f =>
      rw [hf] at hok
      simp only at hok ⊢
      by_cases hcl : f.closed = true
      · rw [if_pos hcl] at hok; simp at hok
      · rw [if_neg hcl] at hok ⊢
        simp

/-- Witness of C6 as the code has it. -/
theorem close_behaviour_witness :
    unopened.file = none ∧ unopened.Close testFS = (none, unopened, testFS) :=
  ⟨rfl, (close_behaviour unopened testFS).1 rfl⟩

/-- An entry that the discovery loop recognises under a name other than the `%d`
rendering of its integer (leading zeros, a plus sign) is counted, but the pruning
block never removes it: the deletion loop names backups by that rendering only. -/
theorem prune_keeps_respelled (w : RotateWriter) (fs : FS) (e : Str) (n : Int)
    (hs : backupStamp w.basename w.ext e = some n)
    (hne : e ≠ backupName w.basename w.ext n) :
    e ∈ (w.prune fs).2.entries ↔ e ∈ fs.entries := by
  refine ⟨(prune_entries w fs e).1, fun he => (prune_entries w fs e).2 he ?_⟩
  intro m hm heq
  have hr := doomed_range w fs.entries m hm
  rw [heq, backupStamp_backupName _ _ m hr.1 hr.2] at hs
  rw [Option.some.inj hs] at heq
  exact hne heq

/-- C3 at a failing input. Three entries are recognised and two may stay; the
oldest is `test-007.log`, but the path given to `os.Remove` is `test-7.log`, which
names no entry: nothing is removed and the cycle fails. -/
theorem prune_misses_padded_name :
    discover testWriter.basename testWriter.ext (renameStep testWriter paddedFS).2.entries
      = [101, 7, 8] ∧
    callsSince paddedFS (testWriter.rotate paddedFS).2.2 =
      [Call.close (some 0), Call.rename "test.log".toList "test-101.log".toList,
        Call.readDir, Call.remove "test-7.log".toList] ∧
    "test-7.log".toList ∉ (renameStep testWriter paddedFS).2.entries ∧
    (testWriter.rotate paddedFS).1 = some Err.ErrNotExist ∧
    (testWriter.rotate paddedFS).2.2.entries =
      ["test-101.log".toList, "test-007.log".toList, "test-8.log".toList] := by
  decide

end Rotatelogger
